import Mathlib

/-!
The HTML to Markdown transducer of `zj-to-hydro`

A shallow embedding of `src/zjHtmlToMarkdown.js` and of the problem-ID check
and the test-data part of `ImportJsonHandler.fromFile` in `index.js`.

* JavaScript strings are modelled as lists of characters (`Str`).  Every
  character the code tests for (newline, white space, backslash, ASCII
  letters) lies in the basic multilingual plane, so code units and code
  points agree on them.
* The document tree produced by the external parser is the inductive type
  `Node`: text nodes, element nodes and every other node kind (comments).
* A global regular-expression replacement `s.replace(/re/g, rep)` is
  `replaceAll m rep s`, where `m` gives the length of the match of `re`
  anchored at the start of its argument.
-/

namespace ZjToHydro

/-- A JavaScript string value. -/
abbrev Str := List Char

/-! ## String primitives -/

/-- The characters matched by `\s` and removed by `String.prototype.trim`:
ECMAScript WhiteSpace and LineTerminator. -/
def isWhiteSpace (c : Char) : Bool :=
  let n := c.toNat
  n = 0x09 || n = 0x0A || n = 0x0B || n = 0x0C || n = 0x0D || n = 0x20 ||
  n = 0xA0 || n = 0x1680 || (0x2000 ≤ n && n ≤ 0x200A) ||
  n = 0x2028 || n = 0x2029 || n = 0x202F || n = 0x205F || n = 0x3000 || n = 0xFEFF

/-- The method `String.prototype.trim`. -/
def trim (s : Str) : Str :=
  (s.dropWhile isWhiteSpace).rdropWhile isWhiteSpace

/-- The method `String.prototype.toLowerCase`, on ASCII letters; characters
outside `A`-`Z` are left as they are. -/
def toLowerCase (s : Str) : Str := s.map Char.toLower

/-- The method `String.prototype.includes`. -/
def includes (s sub : Str) : Bool :=
  s.tails.any (fun t => sub.isPrefixOf t)

/-- Global replacement `s.replace(/re/g, rep)`.  `m t` is the length of the
match of `re` anchored at the start of `t`, if there is one.  The scan goes
left to right; `skip` counts the characters of the current match that are
still to be consumed, so matches never overlap. -/
def replaceFrom (m : Str → Option Nat) (rep : Str) : Nat → Str → Str
  | _, [] => []
  | skip + 1, _ :: cs => replaceFrom m rep skip cs
  | 0, c :: cs =>
    match m (c :: cs) with
    | some (n + 1) => rep ++ replaceFrom m rep n cs
    | _ => c :: replaceFrom m rep 0 cs

/-- Global replacement, started outside any match. -/
def replaceAll (m : Str → Option Nat) (rep : Str) (s : Str) : Str :=
  replaceFrom m rep 0 s

/-- Anchored match of a literal pattern. -/
def matchLit (pat : Str) (s : Str) : Option Nat :=
  if pat.isPrefixOf s then some pat.length else none

/-- Anchored greedy match of `/\n{3,}/`. -/
def matchNewlines3 (s : Str) : Option Nat :=
  let n := (s.takeWhile (fun c => c = '\n')).length
  if 3 ≤ n then some n else none

/-- Anchored greedy match of `/\s+/`. -/
def matchSpaces (s : Str) : Option Nat :=
  let n := (s.takeWhile isWhiteSpace).length
  if 1 ≤ n then some n else none

/-- Anchored greedy match of `/\\leq?/` (`name = le`) and `/\\geq?/`
(`name = ge`): a backslash, the name, then an optional `q`. -/
def matchOptQ (name : Str) (s : Str) : Option Nat :=
  if ('\\' :: (name ++ ['q'])).isPrefixOf s then some (name.length + 2)
  else if ('\\' :: name).isPrefixOf s then some (name.length + 1)
  else none

/-- Anchored greedy match of `/\\[a-zA-Z]+/`. -/
def matchMacro (s : Str) : Option Nat :=
  match s with
  | '\\' :: rest =>
    let n := (rest.takeWhile Char.isAlpha).length
    if 1 ≤ n then some (n + 1) else none
  | _ => none

/-- The post-processing step `.replace(/\n{3,}/g, '\n\n')` of
`htmlToOJMarkdown`. -/
def collapseNewlines (s : Str) : Str :=
  replaceAll matchNewlines3 ['\n', '\n'] s

/-- The function `normalizeMath`. -/
def normalizeMath (s : Str) : Str :=
  let s := replaceAll matchSpaces [' '] s
  let s := replaceAll (matchOptQ "le".toList) ['≤'] s
  let s := replaceAll (matchOptQ "ge".toList) ['≥'] s
  let s := replaceAll (matchLit "\\times".toList) ['×'] s
  let s := replaceAll (matchLit "\\cdot".toList) ['·'] s
  let s := replaceAll (matchLit "\\to".toList) ['→'] s
  let s := replaceAll matchMacro [] s
  let s := replaceAll (matchLit ['\\']) [] s
  trim s

/-! ## The document tree -/

/-- A node of the parsed document.  An element carries its `tagName`, its
attributes in source order, the value of `style.textDecoration` of its parsed
inline style (when that is a string) and its child nodes in document order.
`other` stands for every node that is neither text nor element. -/
inductive Node where
  | text (data : Str)
  | element (tagName : Str) (attributes : List (Str × Str))
      (textDecoration : Option Str) (childNodes : List Node)
  | other

/-- The method `Element.getAttribute`. -/
def getAttribute (attributes : List (Str × Str)) (name : Str) : Option Str :=
  (attributes.find? (fun a => a.1 = name)).map Prod.snd

/-- The property `Element.className`: the `class` attribute, or the empty
string. -/
def className (attributes : List (Str × Str)) : Str :=
  (getAttribute attributes "class".toList).getD []

mutual
/-- The property `Node.textContent`: the data of the descendant text nodes
in document order. -/
def textContent : Node → Str
  | .text data => data
  | .element _ _ _ childNodes => textContentList childNodes
  | .other => []
/-- Text content of a list of sibling nodes. -/
def textContentList : List Node → Str
  | [] => []
  | n :: ns => textContent n ++ textContentList ns
end

/-- The function `extractMath`, given the element's child nodes. -/
def extractMath (childNodes : List Node) : Str :=
  normalizeMath (textContentList childNodes)

/-- The function `renderImage`. -/
def renderImage (attributes : List (Str × Str)) : Str :=
  let src := (getAttribute attributes "src".toList).getD []
  let alt := (getAttribute attributes "alt".toList).getD []
  "![".toList ++ alt ++ "](".toList ++ src ++ ")".toList

/-- The value `dec` of `renderSpan`: the parsed `style.textDecoration` in
lower case when it is a string, the empty string otherwise. -/
def parsedDecoration (textDecoration : Option Str) : Str :=
  match textDecoration with
  | some d => toLowerCase d
  | none => []

/-- The function `renderSpan`, given the rendering `children` of the
element's child nodes. -/
def renderSpan (attributes : List (Str × Str)) (textDecoration : Option Str)
    (childNodes : List Node) (children : Str) : Str :=
  let cls := className attributes
  if includes cls "math-inline".toList then
    "$".toList ++ extractMath childNodes ++ "$".toList
  else if includes cls "math-display".toList then
    "\n$$\n".toList ++ extractMath childNodes ++ "\n$$\n".toList
  else
    let dec := parsedDecoration textDecoration
    if includes dec "underline".toList then
      "<u>".toList ++ children ++ "</u>".toList
    else if includes dec "line-through".toList then
      "~~".toList ++ children ++ "~~".toList
    else
      let styleAttr := toLowerCase ((getAttribute attributes "style".toList).getD [])
      if includes styleAttr "text-decoration".toList
          && includes styleAttr "underline".toList then
        "<u>".toList ++ children ++ "</u>".toList
      else if includes styleAttr "text-decoration".toList
          && includes styleAttr "line-through".toList then
        "~~".toList ++ children ++ "~~".toList
      else children

/-- The table text built by `renderTable` from the rows of the table, each
row given as the trimmed renderings of its cells. -/
def tableText : List (List Str) → Str
  | [] => []
  | headerCells :: dataRows =>
    "\n| ".toList ++ List.intercalate " | ".toList headerCells ++ " |\n|".toList
      ++ (List.replicate headerCells.length " --- |".toList).flatten
      ++ "\n".toList
      ++ (dataRows.map (fun cells =>
            "| ".toList
              ++ List.intercalate " | ".toList
                  (cells.map (fun c => if c = [] then "&nbsp;".toList else c))
              ++ " |\n".toList)).flatten
      ++ "\n".toList

mutual
/-- The function `walk`.  `parentTag` is `node.parentElement?.tagName`. -/
def walk (parentTag : Option Str) : Node → Str
  | .text data => data
  | .element tagName attributes textDecoration childNodes =>
    let children := walkList (some tagName) childNodes
    let tag := toLowerCase tagName
    if tag = "h1".toList then "# ".toList ++ children ++ "\n\n".toList
    else if tag = "h2".toList then "## ".toList ++ children ++ "\n\n".toList
    else if tag = "h3".toList then "### ".toList ++ children ++ "\n\n".toList
    else if tag = "h4".toList then "#### ".toList ++ children ++ "\n\n".toList
    else if tag = "h5".toList then "##### ".toList ++ children ++ "\n\n".toList
    else if tag = "h6".toList then "###### ".toList ++ children ++ "\n\n".toList
    else if tag = "p".toList then children ++ "\n\n".toList
    else if tag = "strong".toList then "**".toList ++ children ++ "**".toList
    else if tag = "em".toList then "*".toList ++ children ++ "*".toList
    else if tag = "sup".toList then "<sup>".toList ++ children ++ "</sup>".toList
    else if tag = "sub".toList then "<sub>".toList ++ children ++ "</sub>".toList
    else if tag = "code".toList then
      if parentTag.map toLowerCase = some "pre".toList then children
      else "`".toList ++ children ++ "`".toList
    else if tag = "pre".toList then
      "\n```\n".toList ++ children ++ "\n```\n".toList
    else if tag = "ul".toList then "\n".toList ++ children
    else if tag = "ol".toList then "\n".toList ++ renderOrderedList 1 childNodes
    else if tag = "li".toList then "- ".toList ++ children ++ "\n".toList
    else if tag = "img".toList then renderImage attributes
    else if tag = "span".toList then
      renderSpan attributes textDecoration childNodes children
    else if tag = "table".toList then tableText (rowsIn childNodes)
    else if tag = "hr".toList then "\n---\n\n".toList
    else if tag = "br".toList then "\n".toList
    else children
  | .other => []
/-- The expression `Array.from(el.childNodes).map(walk).join('')`, for the
child nodes of an element with tag name `parentTag`. -/
def walkList (parentTag : Option Str) : List Node → Str
  | [] => []
  | n :: ns => walk parentTag n ++ walkList parentTag ns
/-- The function `renderOrderedList` on the child nodes of the `ol`, with the
current value of `counter`: the `filter` keeps the `li` elements, the `map`
numbers them. -/
def renderOrderedList (counter : Nat) : List Node → Str
  | [] => []
  | .element tagName _ _ childNodes :: rest =>
    if toLowerCase tagName = "li".toList then
      (Nat.toDigits 10 counter ++ ". ".toList
        ++ walkList (some tagName) childNodes ++ "\n".toList)
        ++ renderOrderedList (counter + 1) rest
    else renderOrderedList counter rest
  | _ :: rest => renderOrderedList counter rest
/-- The cells `querySelectorAll('td, th')` finds below a list of sibling
nodes, in document order, each rendered as
`Array.from(cell.childNodes).map(walk).join('').trim()`. -/
def cellsIn : List Node → List Str
  | [] => []
  | .element tagName _ _ childNodes :: rest =>
    (if toLowerCase tagName = "td".toList ∨ toLowerCase tagName = "th".toList
      then [trim (walkList (some tagName) childNodes)] else [])
      ++ cellsIn childNodes ++ cellsIn rest
  | _ :: rest => cellsIn rest
/-- The rows `querySelectorAll('tr')` finds below a list of sibling nodes, in
document order, each given by its rendered cells. -/
def rowsIn : List Node → List (List Str)
  | [] => []
  | .element tagName _ _ childNodes :: rest =>
    (if toLowerCase tagName = "tr".toList then [cellsIn childNodes] else [])
      ++ rowsIn childNodes ++ rowsIn rest
  | _ :: rest => rowsIn rest
end

/-- The function `renderTable`, given the child nodes of the table; the
`table` case of `walk` is this expression. -/
def renderTable (childNodes : List Node) : Str :=
  tableText (rowsIn childNodes)

/-- The function `htmlToOJMarkdown` on the parsed document: `body` is
`document.body`, whose parent element is the `html` element. -/
def htmlToOJMarkdown (body : Node) : Str :=
  trim (collapseNewlines (walk (some "HTML".toList) body))

/-! ## Shorthands for building trees -/

/-- An element without attributes and without parsed decoration. -/
def el (tagName : String) (childNodes : List Node) : Node :=
  .element tagName.toList [] none childNodes

/-- A text node. -/
def txt (data : String) : Node := .text data.toList

/-! ## Vocabulary of the statements -/

/-- The child nodes of a node; a node that is not an element has none. -/
def Node.childNodes : Node → List Node
  | .element _ _ _ childNodes => childNodes
  | _ => []

/-- Whether a node is an element whose lower-cased tag name is one of `tags`. -/
def isElementOf (tags : List Str) : Node → Bool
  | .element tagName _ _ _ => decide (toLowerCase tagName ∈ tags)
  | _ => false

mutual
/-- The node itself when it is an element whose lower-cased tag name is one
of `tags`, followed by its descendants of that kind, in document order. -/
def selectNode (tags : List Str) : Node → List Node
  | .element tagName attributes textDecoration childNodes =>
    (if toLowerCase tagName ∈ tags
      then [Node.element tagName attributes textDecoration childNodes] else [])
      ++ selectList tags childNodes
  | _ => []
/-- The elements among a list of sibling nodes and below them whose
lower-cased tag name is one of `tags`, in document order. -/
def selectList (tags : List Str) : List Node → List Node
  | [] => []
  | n :: ns => selectNode tags n ++ selectList tags ns
end

/-- The method `querySelectorAll` for a list of type selectors: the
descendants of `node` with one of the tags, in document order. -/
def querySelectorAll (tags : List Str) (node : Node) : List Node :=
  selectList tags node.childNodes

/-- The expression `Array.from(node.childNodes).map(walk).join('')` for an
element `node`. -/
def renderChildren : Node → Str
  | .element tagName _ _ childNodes => walkList (some tagName) childNodes
  | _ => []

/-- The lower-cased tag names with a `case` of their own in `walk`. -/
def handledTags : List Str :=
  ["h1", "h2", "h3", "h4", "h5", "h6", "p", "strong", "em", "sup", "sub", "code", "pre",
    "ul", "ol", "li", "img", "span", "table", "hr", "br"].map String.toList

/-- The item `renderOrderedList` emits for the `li` element `li` when the
counter has the value `k`. -/
def orderedItem (k : Nat) (li : Node) : Str :=
  Nat.toDigits 10 k ++ ". ".toList ++ renderChildren li ++ "\n".toList

/-- The header line of a table: the header cells between bars. -/
def headerLine (cells : List Str) : Str :=
  "| ".toList ++ List.intercalate " | ".toList cells ++ " |".toList

/-- The separator line of a table with `n` header cells. -/
def separatorLine (n : Nat) : Str :=
  '|' :: (List.replicate n " --- |".toList).flatten

/-- The line of a data row: its cells between bars, an empty cell replaced by
the placeholder. -/
def dataLine (cells : List Str) : Str :=
  "| ".toList
    ++ List.intercalate " | ".toList (cells.map (fun c => if c = [] then "&nbsp;".toList else c))
    ++ " |".toList

/-- A string read line by line: the pieces between its newline characters. -/
def lines (s : Str) : List Str := s.splitOn '\n'

/-- The lower-cased tag names selected by `'td, th'`. -/
def cellTags : List Str := ["td".toList, "th".toList]

/-- The rendered cells of a table row:
`Array.from(row.querySelectorAll('td, th'))` mapped with
`cell => Array.from(cell.childNodes).map(walk).join('').trim()`. -/
def rowCells (row : Node) : List Str :=
  (querySelectorAll cellTags row).map (fun cell => trim (renderChildren cell))

/-- The cell segments of a data row:
`Array.from(row.querySelectorAll('td, th'))` mapped with
`cell => Array.from(cell.childNodes).map(walk).join('').trim() || '&nbsp;'`. -/
def dataSegments (row : Node) : List Str :=
  (querySelectorAll cellTags row).map (fun cell =>
    if trim (renderChildren cell) = [] then "&nbsp;".toList else trim (renderChildren cell))

/-- The lower-cased tag names of the row wrappers of a table. -/
def wrapperTags : List Str := ["thead".toList, "tbody".toList]

/-! ## Invocations of `walk` -/

mutual
/-- The number of invocations of `walk` that the call `walk(node)` makes,
itself included.  On an element, line 19 walks every child; after that
`renderOrderedList` walks the children of every direct `li` child (line 126),
`renderSpan` walks every child once more (line 65), and `renderTable` walks
the children of every cell of every row (lines 141 and 156). -/
def walkCalls : Node → Nat
  | .text _ => 1
  | .element tagName _ _ childNodes =>
    1 + walkCallsList childNodes
      + (if toLowerCase tagName = "ol".toList then orderedListCalls childNodes
        else if toLowerCase tagName = "span".toList then walkCallsList childNodes
        else if toLowerCase tagName = "table".toList then rowCalls childNodes
        else 0)
  | .other => 1
/-- Invocations of `walk` made by `Array.from(el.childNodes).map(walk)`. -/
def walkCallsList : List Node → Nat
  | [] => 0
  | n :: ns => walkCalls n + walkCallsList ns
/-- Invocations of `walk` made by `renderOrderedList` on the child nodes of
the `ol`. -/
def orderedListCalls : List Node → Nat
  | [] => 0
  | .element tagName _ _ childNodes :: rest =>
    (if toLowerCase tagName = "li".toList then walkCallsList childNodes else 0)
      + orderedListCalls rest
  | _ :: rest => orderedListCalls rest
/-- Invocations of `walk` made for the cells found below a list of sibling
nodes. -/
def cellCalls : List Node → Nat
  | [] => 0
  | .element tagName _ _ childNodes :: rest =>
    (if toLowerCase tagName = "td".toList ∨ toLowerCase tagName = "th".toList
      then walkCallsList childNodes else 0)
      + cellCalls childNodes + cellCalls rest
  | _ :: rest => cellCalls rest
/-- Invocations of `walk` made by `renderTable` for the rows found below a
list of sibling nodes. -/
def rowCalls : List Node → Nat
  | [] => 0
  | .element tagName _ _ childNodes :: rest =>
    (if toLowerCase tagName = "tr".toList then cellCalls childNodes else 0)
      + rowCalls childNodes + rowCalls rest
  | _ :: rest => rowCalls rest
end

mutual
/-- The number of nodes of the tree below and including a node. -/
def nodeCount : Node → Nat
  | .text _ => 1
  | .element _ _ _ childNodes => 1 + nodeCountList childNodes
  | .other => 1
/-- The number of nodes of the trees of a list of sibling nodes. -/
def nodeCountList : List Node → Nat
  | [] => 0
  | n :: ns => nodeCount n + nodeCountList ns
end

/-- The text node `x` inside `depth` nested `span` elements. -/
def nestedSpans : Nat → Node
  | 0 => txt "x"
  | depth + 1 => el "SPAN" [nestedSpans depth]

/-! ## The import handler of `index.js` -/

/-- The character class `[a-zA-Z]`. -/
def isAsciiLetter (c : Char) : Bool :=
  (0x61 ≤ c.toNat && c.toNat ≤ 0x7A) || (0x41 ≤ c.toNat && c.toNat ≤ 0x5A)

/-- The character class `\d`. -/
def isAsciiDigit (c : Char) : Bool :=
  0x30 ≤ c.toNat && c.toNat ≤ 0x39

/-- One character of the class `p`, anchored: the rest of the input after the
match. -/
def matchClass (p : Char → Bool) : Str → Option Str
  | c :: rest => if p c then some rest else none
  | [] => none

/-- The quantifier `{n}` on a character class: exactly `n` characters of the
class. -/
def matchClassTimes (p : Char → Bool) : Nat → Str → Option Str
  | 0, s => some s
  | n + 1, s =>
    match matchClass p s with
    | some rest => matchClassTimes p n rest
    | none => none

/-- The test `pidRegex.test(s)` for `pidRegex = /^[a-zA-Z]\d{3}$/`: the
pattern has no flag, so `^` matches only at the start of the input and `$`
only at its end. -/
def pidRegexTest (s : Str) : Bool :=
  match matchClass isAsciiLetter s with
  | some rest =>
    match matchClassTimes isAsciiDigit 3 rest with
    | some rest2 => rest2.isEmpty
    | none => false
  | none => false

/-- The exception `ValidationError` with the name of the rejected field and
its message. -/
structure ValidationError where
  field : String
  message : Str
  deriving DecidableEq

/-- The problem-ID check of `fromFile` (lines 37 to 41). -/
def checkProblemId (problemid : Str) : Except ValidationError Unit :=
  if !pidRegexTest problemid then
    .error { field := "problemid"
             message := "Invalid PID: ".toList ++ problemid
               ++ ". Must be one letter + 3 digits.".toList }
  else .ok ()

/-- The values the field `timelimits` of schema type `any` is given in the
bundles: a number, a string or an array of numbers. -/
inductive TimeLimits where
  | number (n : Nat)
  | string (s : Str)
  | array (items : List Nat)
  deriving DecidableEq

/-- The fields of the validated bundle that the test-data part of `fromFile`
reads; an absent field is `none`. -/
structure ZJson where
  testfilelength : Nat
  testinfiles : Option (List Str)
  testoutfiles : Option (List Str)
  timelimits : Option TimeLimits
  memorylimit : Option Nat
  deriving DecidableEq

/-- A test case of a subtask. -/
structure Case where
  input : Str
  output : Str
  deriving DecidableEq

/-- The object `config`; a subtask is given by its list `cases`. -/
structure Config where
  type : Str
  time : Str
  memory : Str
  subtasks : List (List Case)
  deriving DecidableEq

/-- What a call of `ProblemModel.addTestdata` is given to write: the bytes of
a test file, or the dump of `config` as it is at the time of the call. -/
inductive Payload where
  | file (content : Str)
  | config (dump : Config)
  deriving DecidableEq

/-- A call `ProblemModel.addTestdata(domainId, pid, name, payload)` pushed on
`tasks`. -/
structure Task where
  name : Str
  payload : Payload
  deriving DecidableEq

/-- The template literal of a number. -/
def numberText (n : Nat) : Str := Nat.toDigits 10 n

/-- The initial value of `config.time` (line 79). -/
def timeText : Option TimeLimits → Str
  | some (.array (first :: _)) => numberText first ++ "s".toList
  | some (.array []) => "undefineds".toList
  | some (.number n) => numberText n ++ "s".toList
  | some (.string s) => s ++ "s".toList
  | none => "undefineds".toList

/-- The test `!data.timelimits`: absent, `0` and the empty string are falsy,
an array never is. -/
def timelimitsFalsy : Option TimeLimits → Bool
  | none => true
  | some (.number n) => n = 0
  | some (.string s) => s.isEmpty
  | some (.array _) => false

/-- The object `config` after lines 77 to 85. -/
def initialConfig (data : ZJson) : Config :=
  let time := timeText data.timelimits
  let memory := match data.memorylimit with
    | some m => numberText m ++ "mb".toList
    | none => "undefinedmb".toList
  let time := if timelimitsFalsy data.timelimits then "1s".toList else time
  let memory := if data.memorylimit = none ∨ data.memorylimit = some 0
    then "64mb".toList else memory
  { type := "default".toList, time := time, memory := memory, subtasks := [] }

/-- The expression `Buffer.from(files[i])` of the first loop: a `TypeError`
(`none`) when the array or its entry is missing. -/
def bufferFrom (files : Option (List Str)) (i : Nat) : Option Str :=
  match files with
  | some fs => fs.get? i
  | none => none

/-- The expression `Buffer.from(files[i] || '')` of the second loop: a
`TypeError` (`none`) when the array is missing. -/
def bufferFromOrEmpty (files : Option (List Str)) (i : Nat) : Option Str :=
  match files with
  | some fs => some ((fs.get? i).getD [])
  | none => none

/-- The first loop (lines 87 to 97), run for the indices `i` of the list,
on the state `(tasks, config)`. -/
def firstLoop (data : ZJson) : List Nat → List Task × Config → Option (List Task × Config)
  | [], state => some state
  | i :: rest, (tasks, config) =>
    let inName := numberText (i + 1) ++ ".in".toList
    let outName := numberText (i + 1) ++ ".out".toList
    match bufferFrom data.testinfiles i with
    | none => none
    | some inBuf =>
      match bufferFrom data.testoutfiles i with
      | none => none
      | some outBuf =>
        firstLoop data rest
          (tasks ++ [⟨inName, .file inBuf⟩, ⟨outName, .file outBuf⟩],
            { config with subtasks := config.subtasks ++ [[⟨inName, outName⟩]] })

/-- The second loop (lines 102 to 112). -/
def secondLoop (data : ZJson) : List Nat → List Task × Config → Option (List Task × Config)
  | [], state => some state
  | i :: rest, (tasks, config) =>
    let inName := numberText (i + 1) ++ ".in".toList
    let outName := numberText (i + 1) ++ ".out".toList
    match bufferFromOrEmpty data.testinfiles i with
    | none => none
    | some inBuf =>
      match bufferFromOrEmpty data.testoutfiles i with
      | none => none
      | some outBuf =>
        secondLoop data rest
          (tasks ++ [⟨inName, .file inBuf⟩, ⟨outName, .file outBuf⟩],
            { config with subtasks := config.subtasks ++ [[⟨inName, outName⟩]] })

/-- Lines 75 to 114 of `fromFile`: the list `tasks` handed to `Promise.all`
and the final `config`, or `none` when a `TypeError` is thrown on the way. -/
def buildTestdata (data : ZJson) : Option (List Task × Config) :=
  match firstLoop data (List.range data.testfilelength) ([], initialConfig data) with
  | none => none
  | some (tasks, config) =>
    let tasks := tasks ++ [⟨"config.yaml".toList, .config config⟩]
    match secondLoop data (List.range data.testfilelength) (tasks, config) with
    | none => none
    | some (tasks, config) =>
      some (tasks ++ [⟨"config.yaml".toList, .config config⟩], config)

/-- The names `{i+1}.in` and `{i+1}.out` of the test files with index `i`. -/
def testFileNames (i : Nat) : List Str :=
  [numberText (i + 1) ++ ".in".toList, numberText (i + 1) ++ ".out".toList]

/-- The subtask with the single case of the test files with index `i`. -/
def subtaskOf (i : Nat) : List Case :=
  [⟨numberText (i + 1) ++ ".in".toList, numberText (i + 1) ++ ".out".toList⟩]

/-- A bundle with one test file pair and no limits. -/
def oneTestBundle : ZJson :=
  { testfilelength := 1, testinfiles := some ["1 2".toList],
    testoutfiles := some ["3".toList], timelimits := none, memorylimit := none }

/-! ## String primitives -/

theorem includes_iff (s sub : Str) : includes s sub = true ↔ sub <:+: s := by
  rw [List.infix_iff_prefix_suffix]
  simp only [includes, List.any_eq_true, List.mem_tails, List.isPrefixOf_iff_prefix]
  constructor
  · rintro ⟨t, ht, hp⟩
    exact ⟨t, hp, ht⟩
  · rintro ⟨t, hp, ht⟩
    exact ⟨t, ht, hp⟩

/-! ## Global replacement -/

theorem replaceFrom_skip (m : Str → Option Nat) (rep : Str) :
    ∀ (s : Str) (n : Nat), replaceFrom m rep n s = replaceFrom m rep 0 (s.drop n) := by
  intro s
  induction s with
  | nil => intro n; cases n <;> simp [replaceFrom]
  | cons c cs ih =>
    intro n
    cases n with
    | zero => simp
    | succ k => simp [replaceFrom, ih k]

theorem replaceAll_nil (m : Str → Option Nat) (rep : Str) : replaceAll m rep [] = [] := by
  simp [replaceAll, replaceFrom]

theorem replaceAll_match (m : Str → Option Nat) (rep : Str) (c : Char) (cs : Str) (n : Nat)
    (h : m (c :: cs) = some (n + 1)) :
    replaceAll m rep (c :: cs) = rep ++ replaceAll m rep (cs.drop n) := by
  unfold replaceAll
  rw [← replaceFrom_skip]
  simp only [replaceFrom]
  rw [h]

theorem replaceAll_nomatch (m : Str → Option Nat) (rep : Str) (c : Char) (cs : Str)
    (h : m (c :: cs) = none) :
    replaceAll m rep (c :: cs) = c :: replaceAll m rep cs := by
  unfold replaceAll
  simp only [replaceFrom]
  rw [h]

/-! ## The newline collapse -/

theorem newlineRun_length (n : Nat) (t : Str) (ht : t.head? ≠ some '\n') :
    ((List.replicate n '\n' ++ t).takeWhile (fun c => c = '\n')).length = n := by
  induction n with
  | zero =>
    cases t with
    | nil => simp
    | cons d ds =>
      have hd : d ≠ '\n' := by simpa using ht
      simp [List.takeWhile_cons, hd]
  | succ k ih =>
    rw [List.replicate_succ, List.cons_append, List.takeWhile_cons_of_pos (by simp),
      List.length_cons, ih]

theorem matchNewlines3_run (n : Nat) (t : Str) (ht : t.head? ≠ some '\n') :
    matchNewlines3 (List.replicate n '\n' ++ t) = if 3 ≤ n then some n else none := by
  unfold matchNewlines3
  rw [newlineRun_length n t ht]

theorem collapseNewlines_nil : collapseNewlines [] = [] := replaceAll_nil _ _

theorem collapseNewlines_cons_ne (c : Char) (cs : Str) (h : c ≠ '\n') :
    collapseNewlines (c :: cs) = c :: collapseNewlines cs := by
  apply replaceAll_nomatch
  simp [matchNewlines3, List.takeWhile_cons, h]

theorem collapseNewlines_run (n : Nat) (t : Str) (ht : t.head? ≠ some '\n') :
    collapseNewlines (List.replicate n '\n' ++ t)
      = List.replicate (min n 2) '\n' ++ collapseNewlines t := by
  rcases Nat.lt_or_ge n 3 with hn | hn
  · have h1 := matchNewlines3_run 1 t ht
    have h2 := matchNewlines3_run 2 t ht
    simp only [List.replicate_succ, List.replicate_zero, List.cons_append, List.nil_append] at h1 h2
    norm_num at h1 h2
    have e1 : collapseNewlines ('\n' :: t) = '\n' :: collapseNewlines t :=
      replaceAll_nomatch _ _ _ _ h1
    have e2 : collapseNewlines ('\n' :: '\n' :: t) = '\n' :: collapseNewlines ('\n' :: t) :=
      replaceAll_nomatch _ _ _ _ h2
    interval_cases n
    · simp
    · simpa using e1
    · simpa [List.replicate_succ, e1] using e2
  · obtain ⟨k, rfl⟩ : ∃ k, n = k + 1 := ⟨n - 1, by omega⟩
    have hk := matchNewlines3_run (k + 1) t ht
    rw [if_pos hn, List.replicate_succ, List.cons_append] at hk
    have hmin : min (k + 1) 2 = 2 := by omega
    rw [hmin, List.replicate_succ, List.cons_append]
    unfold collapseNewlines
    rw [replaceAll_match _ _ _ _ _ hk]
    simp

/-- Every string is empty, starts with a character other than a newline, or
starts with a maximal non-empty run of newlines. -/
theorem newlineRun_induction (P : Str → Prop) (hnil : P [])
    (hcons : ∀ c cs, c ≠ '\n' → P cs → P (c :: cs))
    (hrun : ∀ n t, 1 ≤ n → t.head? ≠ some '\n' → P t → P (List.replicate n '\n' ++ t)) :
    ∀ s, P s := by
  have key : ∀ (len : Nat) (s : Str), s.length ≤ len → P s := by
    intro len
    induction len with
    | zero =>
      intro s hs
      have : s = [] := List.length_eq_zero.mp (by omega)
      subst this
      exact hnil
    | succ k ih =>
      intro s hs
      cases s with
      | nil => exact hnil
      | cons c cs =>
        have hcs : cs.length ≤ k := by simpa using hs
        by_cases hc : c = '\n'
        · subst hc
          have hsplit := List.takeWhile_append_dropWhile (fun c => decide (c = '\n')) ('\n' :: cs)
          have hall : ∀ x ∈ List.takeWhile (fun c => decide (c = '\n')) ('\n' :: cs),
              x = '\n' := by
            intro x hx
            simpa using List.mem_takeWhile_imp hx
          have hrep := List.eq_replicate_of_mem hall
          have hpos : 1 ≤ (List.takeWhile (fun c => decide (c = '\n')) ('\n' :: cs)).length := by
            simp [List.takeWhile_cons]
          have hhead : (List.dropWhile (fun c => decide (c = '\n')) ('\n' :: cs)).head?
              ≠ some '\n' := by
            have := List.head?_dropWhile_not (fun c => decide (c = '\n')) ('\n' :: cs)
            intro hh
            rw [hh] at this
            simp at this
          have hl := congrArg List.length hsplit
          rw [List.length_append, List.length_cons] at hl
          rw [← hsplit, hrep]
          exact hrun _ _ hpos hhead (ih _ (by omega))
        · exact hcons c cs hc (ih cs hcs)
  intro s
  exact key s.length s (Nat.le_refl _)

theorem collapseNewlines_head (t : Str) (ht : t.head? ≠ some '\n') :
    (collapseNewlines t).head? ≠ some '\n' := by
  cases t with
  | nil => simp [collapseNewlines_nil]
  | cons d ds =>
    have hd : d ≠ '\n' := by simpa using ht
    simpa [collapseNewlines_cons_ne d ds hd] using hd

theorem collapseNewlines_idem (s : Str) :
    collapseNewlines (collapseNewlines s) = collapseNewlines s := by
  induction s using newlineRun_induction with
  | hnil => simp [collapseNewlines_nil]
  | hcons c cs hc ih => rw [collapseNewlines_cons_ne c cs hc, collapseNewlines_cons_ne _ _ hc, ih]
  | hrun n t _ ht ih =>
    rw [collapseNewlines_run n t ht, collapseNewlines_run _ _ (collapseNewlines_head t ht), ih]
    simp

theorem collapseNewlines_no_run (s : Str) :
    ¬ (['\n', '\n', '\n'] <:+: collapseNewlines s) := by
  induction s using newlineRun_induction with
  | hnil => simp [collapseNewlines_nil]
  | hcons c cs hc ih =>
    rw [collapseNewlines_cons_ne c cs hc, List.infix_cons_iff]
    rintro (h | h)
    · exact hc (by simpa using (List.cons_prefix_cons.mp h).1.symm)
    · exact ih h
  | hrun n t _ ht ih =>
    rw [collapseNewlines_run n t ht]
    have hh := collapseNewlines_head t ht
    generalize collapseNewlines t = u at ih hh
    have hu : ¬ (['\n', '\n', '\n'] <+: u) := fun h => ih h.isInfix
    have h1 : ¬ (['\n', '\n'] <+: u) := by
      cases u with
      | nil => simp
      | cons d ds =>
        intro h
        exact hh (by simpa using (List.cons_prefix_cons.mp h).1.symm)
    have h0 : ¬ (['\n'] <+: u) := by
      cases u with
      | nil => simp
      | cons d ds =>
        intro h
        exact hh (by simpa using (List.cons_prefix_cons.mp h).1.symm)
    have hm : min n 2 = 0 ∨ min n 2 = 1 ∨ min n 2 = 2 := by omega
    rcases hm with hm | hm | hm <;> rw [hm]
    · simpa using ih
    · simp only [List.replicate_succ, List.replicate_zero, List.cons_append, List.nil_append,
        List.infix_cons_iff, List.cons_prefix_cons]
      tauto
    · simp only [List.replicate_succ, List.replicate_zero, List.cons_append, List.nil_append,
        List.infix_cons_iff, List.cons_prefix_cons]
      tauto

/-! ## Trimming -/

theorem trim_isInfix (s : Str) : trim s <:+: s :=
  (List.rdropWhile_prefix isWhiteSpace _).isInfix.trans (List.dropWhile_suffix isWhiteSpace).isInfix

theorem trim_head_not_space (s : Str) :
    ¬ ∃ c rest, trim s = c :: rest ∧ isWhiteSpace c = true := by
  rintro ⟨c, rest, h, hc⟩
  obtain ⟨t, ht⟩ : trim s <+: s.dropWhile isWhiteSpace :=
    List.rdropWhile_prefix isWhiteSpace _
  rw [h] at ht
  have := List.head?_dropWhile_not isWhiteSpace s
  rw [← ht] at this
  simp [hc] at this

theorem trim_last_not_space (s : Str) :
    ¬ ∃ c init, trim s = init ++ [c] ∧ isWhiteSpace c = true := by
  rintro ⟨c, init, h, hc⟩
  have hne : (s.dropWhile isWhiteSpace).rdropWhile isWhiteSpace ≠ [] := by
    intro h0
    have : trim s = [] := h0
    rw [h] at this
    simp at this
  have hlast := List.rdropWhile_last_not isWhiteSpace (s.dropWhile isWhiteSpace) hne
  have hc2 : ((s.dropWhile isWhiteSpace).rdropWhile isWhiteSpace).getLast hne = c := by
    have : (init ++ [c]).getLast (by simp) = c := by simp
    simpa [← h, trim] using this
  rw [hc2] at hlast
  exact hlast hc

/-! ## Tables -/

theorem cellsIn_eq : ∀ ns : List Node,
    cellsIn ns = (selectList cellTags ns).map (fun cell => trim (renderChildren cell))
  | [] => by simp [cellsIn, selectList]
  | .text _ :: rest => by simp [cellsIn, selectList, selectNode, cellsIn_eq rest]
  | .other :: rest => by simp [cellsIn, selectList, selectNode, cellsIn_eq rest]
  | .element tagName _ _ childNodes :: rest => by
    by_cases h : toLowerCase tagName ∈ cellTags
    · have h2 : toLowerCase tagName = "td".toList ∨ toLowerCase tagName = "th".toList := by
        simpa [cellTags] using h
      simp only [cellsIn, selectList, selectNode, cellsIn_eq rest, cellsIn_eq childNodes, if_pos h, if_pos h2]
      simp [renderChildren]
    · have h2 : ¬ (toLowerCase tagName = "td".toList ∨ toLowerCase tagName = "th".toList) := by
        simpa [cellTags] using h
      simp only [cellsIn, selectList, selectNode, cellsIn_eq rest, cellsIn_eq childNodes, if_neg h, if_neg h2]
      simp

theorem rowsIn_eq : ∀ ns : List Node,
    rowsIn ns = (selectList ["tr".toList] ns).map rowCells
  | [] => by simp [rowsIn, selectList]
  | .text _ :: rest => by simp [rowsIn, selectList, selectNode, rowsIn_eq rest]
  | .other :: rest => by simp [rowsIn, selectList, selectNode, rowsIn_eq rest]
  | .element tagName _ _ childNodes :: rest => by
    by_cases h : toLowerCase tagName = "tr".toList
    · have h2 : toLowerCase tagName ∈ ["tr".toList] := by simp [h]
      simp only [rowsIn, selectList, selectNode, rowsIn_eq rest, rowsIn_eq childNodes, if_pos h, if_pos h2]
      simp [rowCells, querySelectorAll, Node.childNodes, cellsIn_eq]
    · have h2 : ¬ toLowerCase tagName ∈ ["tr".toList] := by simpa using h
      simp only [rowsIn, selectList, selectNode, rowsIn_eq rest, rowsIn_eq childNodes, if_neg h, if_neg h2]
      simp

theorem lines_cons_line (l rest : Str) (hl : '\n' ∉ l) :
    lines (l ++ '\n' :: rest) = l :: lines rest := by
  unfold lines List.splitOn
  apply List.splitOnP_first
  · intro x hx hxn
    have : x = '\n' := by simpa using hxn
    exact hl (this ▸ hx)
  · simp

theorem lines_terminated (ls : List Str) (t : Str) (h : ∀ l ∈ ls, '\n' ∉ l) :
    lines ((ls.map (fun l => l ++ ['\n'])).flatten ++ t) = ls ++ lines t := by
  induction ls with
  | nil => simp
  | cons l ls ih =>
    have hl : '\n' ∉ l := h l (by simp)
    have ih2 := ih (fun x hx => h x (by simp [hx]))
    simp only [List.map_cons, List.flatten_cons, List.append_assoc, List.singleton_append,
      List.cons_append, List.nil_append]
    rw [lines_cons_line _ _ hl, ih2]

theorem newline_not_mem_intercalate (sep : Str) (cells : List Str) (hsep : '\n' ∉ sep)
    (h : ∀ c ∈ cells, '\n' ∉ c) : '\n' ∉ List.intercalate sep cells := by
  induction cells with
  | nil => simp [List.intercalate]
  | cons c cs ih =>
    have hc : '\n' ∉ c := h c (by simp)
    have ih2 := ih (fun x hx => h x (by simp [hx]))
    cases cs with
    | nil => simpa [List.intercalate] using hc
    | cons d ds =>
      simp only [List.intercalate, List.intersperse_cons₂, List.flatten_cons, List.mem_append,
        not_or] at ih2 ⊢
      exact ⟨hc, hsep, ih2⟩

theorem newline_not_mem_headerLine (cells : List Str) (h : ∀ c ∈ cells, '\n' ∉ c) :
    '\n' ∉ headerLine cells := by
  have := newline_not_mem_intercalate " | ".toList cells (by decide) h
  simpa [headerLine] using this

theorem newline_not_mem_separatorLine (n : Nat) : '\n' ∉ separatorLine n := by
  induction n with
  | zero => simp [separatorLine]
  | succ k ih =>
    simp only [separatorLine, List.mem_cons, not_or, List.replicate_succ, List.flatten_cons,
      List.mem_append] at ih ⊢
    exact ⟨by decide, by decide, ih.2⟩

theorem newline_not_mem_dataLine (cells : List Str) (h : ∀ c ∈ cells, '\n' ∉ c) :
    '\n' ∉ dataLine cells := by
  have := newline_not_mem_intercalate " | ".toList
    (cells.map (fun c => if c = [] then "&nbsp;".toList else c)) (by decide) (by
      intro c hc
      obtain ⟨d, hd, rfl⟩ := List.mem_map.mp hc
      split
      · decide
      · exact h d hd)
  simpa [dataLine] using this

theorem tableText_cons (header : List Str) (data : List (List Str)) :
    tableText (header :: data)
      = '\n' :: ((([headerLine header, separatorLine header.length] ++ data.map dataLine).map
          (fun l => l ++ ['\n'])).flatten ++ ['\n']) := by
  simp [tableText, headerLine, separatorLine, dataLine, List.map_map, Function.comp_def]

theorem lines_tableText (header : List Str) (data : List (List Str))
    (h : ∀ row ∈ header :: data, ∀ cell ∈ row, '\n' ∉ cell) :
    lines (tableText (header :: data))
      = [[], headerLine header, separatorLine header.length] ++ data.map dataLine
          ++ [[], []] := by
  rw [tableText_cons]
  have hls : ∀ l ∈ [headerLine header, separatorLine header.length] ++ data.map dataLine,
      '\n' ∉ l := by
    intro l hl
    simp only [List.cons_append, List.nil_append, List.mem_cons, List.mem_map] at hl
    rcases hl with rfl | rfl | ⟨row, hrow, rfl⟩
    · exact newline_not_mem_headerLine _ (h header (by simp))
    · exact newline_not_mem_separatorLine _
    · exact newline_not_mem_dataLine _ (h row (by simp [hrow]))
  have h0 := lines_cons_line [] ((([headerLine header, separatorLine header.length]
    ++ data.map dataLine).map (fun l => l ++ ['\n'])).flatten ++ ['\n']) (by simp)
  rw [List.nil_append] at h0
  rw [h0, lines_terminated _ _ hls]
  have : lines ['\n'] = [[], []] := by decide
  rw [this]
  simp

/-! ## The math normaliser -/

theorem drop_length_takeWhile (p : Char → Bool) (s : Str) :
    s.drop (s.takeWhile p).length = s.dropWhile p := by
  induction s with
  | nil => simp
  | cons c cs ih =>
    by_cases hc : p c = true
    · simp [List.takeWhile_cons, List.dropWhile_cons, hc, ih]
    · simp [List.takeWhile_cons, List.dropWhile_cons, hc]

theorem collapseSpaces_cons_space (c : Char) (cs : Str) (hc : isWhiteSpace c = true) :
    replaceAll matchSpaces [' '] (c :: cs)
      = ' ' :: replaceAll matchSpaces [' '] (cs.dropWhile isWhiteSpace) := by
  have hm : matchSpaces (c :: cs) = some ((cs.takeWhile isWhiteSpace).length + 1) := by
    simp [matchSpaces, List.takeWhile_cons, hc]
  rw [replaceAll_match _ _ _ _ _ hm, drop_length_takeWhile]
  rfl

theorem collapseSpaces_cons_other (c : Char) (cs : Str) (hc : isWhiteSpace c = false) :
    replaceAll matchSpaces [' '] (c :: cs) = c :: replaceAll matchSpaces [' '] cs := by
  apply replaceAll_nomatch
  simp [matchSpaces, List.takeWhile_cons, hc]

theorem collapseSpaces_head (s : Str) (hs : ∀ c, s.head? = some c → isWhiteSpace c = false) :
    ∀ c, (replaceAll matchSpaces [' '] s).head? = some c → isWhiteSpace c = false := by
  cases s with
  | nil => simp [replaceAll_nil]
  | cons d ds =>
    have hd : isWhiteSpace d = false := hs d rfl
    rw [collapseSpaces_cons_other d ds hd]
    intro c hc
    simp only [List.head?_cons, Option.some.injEq] at hc
    exact hc ▸ hd

theorem dropWhile_head (p : Char → Bool) (s : Str) :
    ∀ c, (s.dropWhile p).head? = some c → p c = false := by
  intro c hc
  have := List.head?_dropWhile_not p s
  rw [hc] at this
  exact this

theorem collapseSpaces_spec (s : Str) :
    (∀ a b, [a, b] <:+: replaceAll matchSpaces [' '] s →
      isWhiteSpace a = true → isWhiteSpace b = false)
    ∧ (∀ c ∈ replaceAll matchSpaces [' '] s, isWhiteSpace c = true → c = ' ')
    ∧ (∀ c ∈ replaceAll matchSpaces [' '] s, c = ' ' ∨ c ∈ s) := by
  have key : ∀ (len : Nat) (s : Str), s.length ≤ len →
      (∀ a b, [a, b] <:+: replaceAll matchSpaces [' '] s →
        isWhiteSpace a = true → isWhiteSpace b = false)
      ∧ (∀ c ∈ replaceAll matchSpaces [' '] s, isWhiteSpace c = true → c = ' ')
      ∧ (∀ c ∈ replaceAll matchSpaces [' '] s, c = ' ' ∨ c ∈ s) := by
    intro len
    induction len with
    | zero =>
      intro s hs
      have : s = [] := List.length_eq_zero.mp (by omega)
      subst this
      simp [replaceAll_nil]
    | succ k ih =>
      intro s hs
      cases s with
      | nil => simp [replaceAll_nil]
      | cons c cs =>
        have hcs : cs.length ≤ k := by simpa using hs
        by_cases hc : isWhiteSpace c = true
        · rw [collapseSpaces_cons_space c cs hc]
          have hsuf : cs.dropWhile isWhiteSpace <:+ cs := List.dropWhile_suffix _
          have hlen : (cs.dropWhile isWhiteSpace).length ≤ k :=
            Nat.le_trans hsuf.length_le hcs
          obtain ⟨i1, i2, i3⟩ := ih _ hlen
          have hhead := collapseSpaces_head _ (dropWhile_head isWhiteSpace cs)
          refine ⟨?_, ?_, ?_⟩
          · intro a b hab ha
            rw [List.infix_cons_iff] at hab
            rcases hab with hp | hi
            · obtain ⟨rfl, hp2⟩ := List.cons_prefix_cons.mp hp
              obtain ⟨t, ht⟩ := hp2
              exact hhead b (by rw [← ht]; rfl)
            · exact i1 a b hi ha
          · intro x hx hws
            rcases List.mem_cons.mp hx with rfl | hx
            · rfl
            · exact i2 x hx hws
          · intro x hx
            rcases List.mem_cons.mp hx with rfl | hx
            · exact Or.inl rfl
            · rcases i3 x hx with h | h
              · exact Or.inl h
              · exact Or.inr (List.mem_cons_of_mem _ (hsuf.subset h))
        · have hc2 : isWhiteSpace c = false := by simpa using hc
          rw [collapseSpaces_cons_other c cs hc2]
          obtain ⟨i1, i2, i3⟩ := ih cs hcs
          refine ⟨?_, ?_, ?_⟩
          · intro a b hab ha
            rw [List.infix_cons_iff] at hab
            rcases hab with hp | hi
            · obtain ⟨rfl, _⟩ := List.cons_prefix_cons.mp hp
              rw [hc2] at ha
              exact absurd ha (by simp)
            · exact i1 a b hi ha
          · intro x hx hws
            rcases List.mem_cons.mp hx with rfl | hx
            · rw [hc2] at hws
              exact absurd hws (by simp)
            · exact i2 x hx hws
          · intro x hx
            rcases List.mem_cons.mp hx with rfl | hx
            · exact Or.inr (List.mem_cons_self _ _)
            · rcases i3 x hx with h | h
              · exact Or.inl h
              · exact Or.inr (List.mem_cons_of_mem _ h)
  exact key s.length s (Nat.le_refl _)

theorem collapseSpaces_fixed (t : Str)
    (hpair : ∀ a b, [a, b] <:+: t → isWhiteSpace a = true → isWhiteSpace b = false)
    (hsp : ∀ c ∈ t, isWhiteSpace c = true → c = ' ') :
    replaceAll matchSpaces [' '] t = t := by
  induction t with
  | nil => exact replaceAll_nil _ _
  | cons c cs ih =>
    have ih2 := ih (fun a b hab => hpair a b (List.infix_cons hab))
      (fun x hx => hsp x (List.mem_cons_of_mem _ hx))
    by_cases hc : isWhiteSpace c = true
    · have hceq : c = ' ' := hsp c (List.mem_cons_self _ _) hc
      have hdrop : cs.dropWhile isWhiteSpace = cs := by
        cases cs with
        | nil => rfl
        | cons d ds =>
          have hd : isWhiteSpace d = false :=
            hpair c d ⟨[], ds, by simp⟩ hc
          simp [List.dropWhile_cons, hd]
      rw [collapseSpaces_cons_space c cs hc, hdrop, ih2, hceq]
    · have hc2 : isWhiteSpace c = false := by simpa using hc
      rw [collapseSpaces_cons_other c cs hc2, ih2]

theorem replaceAll_of_no_backslash (m : Str → Option Nat) (rep : Str)
    (hm : ∀ c cs, c ≠ '\\' → m (c :: cs) = none) (s : Str) (hs : '\\' ∉ s) :
    replaceAll m rep s = s := by
  induction s with
  | nil => exact replaceAll_nil _ _
  | cons c cs ih =>
    have hc : c ≠ '\\' := fun h => hs (h ▸ List.mem_cons_self _ _)
    have hcs : '\\' ∉ cs := fun h => hs (List.mem_cons_of_mem _ h)
    rw [replaceAll_nomatch m rep c cs (hm c cs hc), ih hcs]

theorem matchLit_backslash (pat : Str) (c : Char) (cs : Str) (hc : c ≠ '\\') :
    matchLit ('\\' :: pat) (c :: cs) = none := by
  have : ¬ ('\\' = c) := fun h => hc h.symm
  simp [matchLit, List.isPrefixOf, this]

theorem matchOptQ_backslash (name : Str) (c : Char) (cs : Str) (hc : c ≠ '\\') :
    matchOptQ name (c :: cs) = none := by
  have : ¬ ('\\' = c) := fun h => hc h.symm
  simp [matchOptQ, List.isPrefixOf, this]

theorem matchMacro_backslash (c : Char) (cs : Str) (hc : c ≠ '\\') :
    matchMacro (c :: cs) = none := by
  unfold matchMacro
  split
  · rename_i rest h
    exact absurd (List.cons.inj h).1 hc
  · rfl

theorem removeBackslashes_eq (s : Str) :
    replaceAll (matchLit ['\\']) [] s = s.filter (fun c => c ≠ '\\') := by
  induction s with
  | nil => exact replaceAll_nil _ _
  | cons c cs ih =>
    by_cases hc : c = '\\'
    · subst hc
      have hm : matchLit ['\\'] ('\\' :: cs) = some (0 + 1) := by
        simp [matchLit, List.isPrefixOf]
      rw [replaceAll_match _ _ _ _ _ hm]
      simp [ih]
    · rw [replaceAll_nomatch _ _ _ _ (matchLit_backslash [] c cs hc), ih]
      simp [hc]

theorem trim_trim (s : Str) : trim (trim s) = trim s := by
  have hd : (trim s).dropWhile isWhiteSpace = trim s := by
    rw [List.dropWhile_eq_self_iff]
    intro hl hws
    apply trim_head_not_space s
    cases h : trim s with
    | nil => simp [h] at hl
    | cons c rest =>
      refine ⟨c, rest, rfl, ?_⟩
      simpa [h] using hws
  unfold trim at hd ⊢
  rw [hd, List.rdropWhile_idempotent]

theorem normalizeMath_of_no_backslash (s : Str) (hs : '\\' ∉ s) :
    normalizeMath s = trim (replaceAll matchSpaces [' '] s) := by
  have hw : '\\' ∉ replaceAll matchSpaces [' '] s := by
    intro h
    rcases (collapseSpaces_spec s).2.2 _ h with h1 | h1
    · revert h1
      decide
    · exact hs h1
  unfold normalizeMath
  simp only
  have htimes : ∀ c cs, c ≠ '\\' → matchLit "\\times".toList (c :: cs) = none :=
    fun c cs h => matchLit_backslash "times".toList c cs h
  have hcdot : ∀ c cs, c ≠ '\\' → matchLit "\\cdot".toList (c :: cs) = none :=
    fun c cs h => matchLit_backslash "cdot".toList c cs h
  have hto : ∀ c cs, c ≠ '\\' → matchLit "\\to".toList (c :: cs) = none :=
    fun c cs h => matchLit_backslash "to".toList c cs h
  rw [replaceAll_of_no_backslash _ _ (matchOptQ_backslash _) _ hw,
    replaceAll_of_no_backslash _ _ (matchOptQ_backslash _) _ hw,
    replaceAll_of_no_backslash _ _ htimes _ hw,
    replaceAll_of_no_backslash _ _ hcdot _ hw,
    replaceAll_of_no_backslash _ _ hto _ hw,
    replaceAll_of_no_backslash _ _ matchMacro_backslash _ hw,
    replaceAll_of_no_backslash _ _ (matchLit_backslash []) _ hw]

theorem normalizeMath_no_backslash (s : Str) : '\\' ∉ normalizeMath s := by
  intro h
  unfold normalizeMath at h
  simp only at h
  have h2 := (trim_isInfix _).subset h
  rw [removeBackslashes_eq] at h2
  simp at h2

theorem normalizeMath_fixed (s : Str) (hs : '\\' ∉ s) :
    (∀ a b, [a, b] <:+: normalizeMath s → isWhiteSpace a = true → isWhiteSpace b = false)
    ∧ normalizeMath (normalizeMath s) = normalizeMath s := by
  have hn := normalizeMath_of_no_backslash s hs
  obtain ⟨p1, p2, _⟩ := collapseSpaces_spec s
  have hinf : normalizeMath s <:+: replaceAll matchSpaces [' '] s := by
    rw [hn]
    exact trim_isInfix _
  have q1 : ∀ a b, [a, b] <:+: normalizeMath s → isWhiteSpace a = true →
      isWhiteSpace b = false := fun a b hab => p1 a b (hab.trans hinf)
  have q2 : ∀ c ∈ normalizeMath s, isWhiteSpace c = true → c = ' ' :=
    fun c hc => p2 c (hinf.subset hc)
  refine ⟨q1, ?_⟩
  rw [normalizeMath_of_no_backslash _ (normalizeMath_no_backslash s),
    collapseSpaces_fixed _ q1 q2, hn, trim_trim]

/-! ## The output contract of `htmlToOJMarkdown` -/

/-- C1: for every document tree the string returned by `htmlToOJMarkdown`
contains no run of three consecutive newlines, does not start with a white
space character and does not end with one. -/
theorem htmlToOJMarkdown_normalised (body : Node) :
    ¬ (['\n', '\n', '\n'] <:+: htmlToOJMarkdown body)
    ∧ (¬ ∃ c rest, htmlToOJMarkdown body = c :: rest ∧ isWhiteSpace c = true)
    ∧ (¬ ∃ c init, htmlToOJMarkdown body = init ++ [c] ∧ isWhiteSpace c = true) :=
  ⟨fun h => collapseNewlines_no_run _ (h.trans (trim_isInfix _)),
    trim_head_not_space _, trim_last_not_space _⟩

/-- C2: the collapse of runs of three or more newlines to two newlines is
idempotent on every string. -/
theorem collapseNewlines_idempotent (s : Str) :
    collapseNewlines (collapseNewlines s) = collapseNewlines s :=
  collapseNewlines_idem s

/-- C3, as stated, fails: the top-level conversion trims its result, so it
returns neither the paragraph with its two trailing newlines nor the list
with its leading and trailing newline. -/
theorem htmlToOJMarkdown_examples_trimmed :
    htmlToOJMarkdown (el "BODY" [el "P" [txt "Hello ", el "STRONG" [txt "world"]]])
        ≠ "Hello **world**\n\n".toList
    ∧ htmlToOJMarkdown (el "BODY" [el "UL" [el "LI" [txt "a"], el "LI" [txt "b"]]])
        ≠ "\n- a\n- b\n".toList := by
  decide

/-- C3, amended: on the two example trees `walk` of the body returns
`Hello **world**` followed by two newlines and the list text with its leading
and trailing newline, and `htmlToOJMarkdown` returns these strings trimmed. -/
theorem htmlToOJMarkdown_examples :
    walk (some "HTML".toList) (el "BODY" [el "P" [txt "Hello ", el "STRONG" [txt "world"]]])
        = "Hello **world**\n\n".toList
    ∧ htmlToOJMarkdown (el "BODY" [el "P" [txt "Hello ", el "STRONG" [txt "world"]]])
        = "Hello **world**".toList
    ∧ walk (some "HTML".toList) (el "BODY" [el "UL" [el "LI" [txt "a"], el "LI" [txt "b"]]])
        = "\n- a\n- b\n".toList
    ∧ htmlToOJMarkdown (el "BODY" [el "UL" [el "LI" [txt "a"], el "LI" [txt "b"]]])
        = "- a\n- b".toList := by
  decide

/-! ## Dispatcher -/

theorem walkList_eq_flatten (parentTag : Option Str) (ns : List Node) :
    walkList parentTag ns = (ns.map (walk parentTag)).flatten := by
  induction ns with
  | nil => simp [walkList]
  | cons n ns ih => simp [walkList, ih]

/-- C4: for every level `k` from 1 to 6 and every text `T`, `walk` on an
element whose lower-cased tag name is `h` followed by the digit `k` and whose
only child is the text node `T` returns `k` characters `#`, one space, `T`
and two newlines. -/
theorem walk_heading (parentTag : Option Str) (tagName : Str) (attributes : List (Str × Str))
    (textDecoration : Option Str) (T : Str) (k : Nat) (h1 : 1 ≤ k) (h6 : k ≤ 6)
    (htag : toLowerCase tagName = ['h', Nat.digitChar k]) :
    walk parentTag (.element tagName attributes textDecoration [.text T])
      = List.replicate k '#' ++ ' ' :: T ++ ['\n', '\n'] := by
  interval_cases k <;>
    simp [walk, walkList, htag, Nat.digitChar, List.replicate_succ]

/-- C4, at the element `<H3>` with text `Title`. -/
theorem walk_heading_witness :
    walk none (el "H3" [txt "Title"]) = "### Title\n\n".toList :=
  (walk_heading none "H3".toList [] none "Title".toList 3 (by decide) (by decide)
    (by decide)).trans (by decide)

/-! ## Ordered lists -/

theorem renderOrderedList_eq (ns : List Node) :
    ∀ counter : Nat, renderOrderedList counter ns
      = (((ns.filter (isElementOf ["li".toList])).enumFrom counter).map
          (fun p => orderedItem p.1 p.2)).flatten := by
  induction ns with
  | nil => intro counter; simp [renderOrderedList]
  | cons n ns ih =>
    intro counter
    cases n with
    | text data => simp [renderOrderedList, isElementOf, ih]
    | other => simp [renderOrderedList, isElementOf, ih]
    | element tagName attributes textDecoration childNodes =>
      by_cases hli : toLowerCase tagName = ['l', 'i']
      · simp [renderOrderedList, isElementOf, hli, ih, List.enumFrom_cons, orderedItem,
          renderChildren]
      · simp [renderOrderedList, isElementOf, hli, ih]

/-- C5: `walk` on an `ol` element returns a newline followed by one item
`{k}. {rendered children}` plus newline for the `k`-th direct `li` element
child, `k` counted from 1 in document order; the items carry no `- ` bullet,
and a direct child that is not an `li` element adds nothing and leaves the
counter alone. -/
theorem walk_ol (parentTag : Option Str) (tagName : Str) (attributes : List (Str × Str))
    (textDecoration : Option Str) (childNodes : List Node)
    (htag : toLowerCase tagName = "ol".toList) :
    walk parentTag (.element tagName attributes textDecoration childNodes)
      = '\n' :: (((childNodes.filter (isElementOf ["li".toList])).enumFrom 1).map
          (fun p => Nat.toDigits 10 p.1 ++ ". ".toList ++ renderChildren p.2
            ++ "\n".toList)).flatten := by
  have h := renderOrderedList_eq childNodes 1
  simp only [orderedItem] at h
  simp [walk, htag, h]

/-- C5, at an `ol` with two `li` children between a text node and a `p`. -/
theorem walk_ol_witness :
    walk none (el "OL" [txt " ", el "LI" [txt "x"], el "P" [txt "no"], el "LI" [txt "y"]])
      = "\n1. x\n2. y\n".toList :=
  (walk_ol none "OL".toList [] none
    [txt " ", el "LI" [txt "x"], el "P" [txt "no"], el "LI" [txt "y"]] (by decide)).trans
    (by decide)

/-! ## Passthrough -/

/-- C10: `walk` returns the data of a text node verbatim, and on an element
whose lower-cased tag name is not a handled tag it returns the concatenation,
in document order, of `walk` applied to each child. -/
theorem walk_passthrough (parentTag : Option Str) :
    (∀ data : Str, walk parentTag (.text data) = data)
    ∧ (∀ (tagName : Str) (attributes : List (Str × Str)) (textDecoration : Option Str)
        (childNodes : List Node), toLowerCase tagName ∉ handledTags →
        walk parentTag (.element tagName attributes textDecoration childNodes)
          = (childNodes.map (walk (some tagName))).flatten) := by
  refine ⟨fun data => by simp [walk], ?_⟩
  intro tagName attributes textDecoration childNodes hno
  simp only [handledTags, List.map_cons, List.map_nil, List.mem_cons, List.mem_nil_iff,
    or_false, not_or] at hno
  obtain ⟨a1, a2, a3, a4, a5, a6, a7, a8, a9, a10, a11, a12, a13, a14, a15, a16, a17, a18,
    a19, a20, a21⟩ := hno
  rw [← walkList_eq_flatten]
  simp only [walk]
  simp only [a1, a2, a3, a4, a5, a6, a7, a8, a9, a10, a11, a12, a13, a14, a15, a16, a17, a18,
    a19, a20, a21, if_false]

/-- C10, at a text node with Markdown metacharacters and at a `div`. -/
theorem walk_passthrough_witness :
    walk none (txt "a*b_c|#") = "a*b_c|#".toList
    ∧ walk none (el "DIV" [txt "x", el "EM" [txt "y"]])
      = ([txt "x", el "EM" [txt "y"]].map (walk (some "DIV".toList))).flatten :=
  ⟨(walk_passthrough none).1 _,
    (walk_passthrough none).2 "DIV".toList [] none [txt "x", el "EM" [txt "y"]] (by decide)⟩

/-! ## Spans -/

/-- C7: `walk` on a `span` whose class string contains `math-inline` returns
the normalised text content of the span between dollar signs; when the class
contains `math-display` and not `math-inline` it returns the normalised text
content between two `$$` lines.  The text is that of all descendant text
nodes, nested markup ignored.  On the three example texts the inline form is
`$≤ x → y$`, `$bar$` and `$× 2$`. -/
theorem walk_math_span (parentTag : Option Str) (tagName : Str)
    (attributes : List (Str × Str)) (textDecoration : Option Str) (childNodes : List Node)
    (htag : toLowerCase tagName = "span".toList) :
    (includes (className attributes) "math-inline".toList = true →
      walk parentTag (.element tagName attributes textDecoration childNodes)
        = "$".toList ++ normalizeMath (textContentList childNodes) ++ "$".toList)
    ∧ (includes (className attributes) "math-inline".toList = false →
      includes (className attributes) "math-display".toList = true →
      walk parentTag (.element tagName attributes textDecoration childNodes)
        = "\n$$\n".toList ++ normalizeMath (textContentList childNodes) ++ "\n$$\n".toList)
    ∧ (includes (className attributes) "math-inline".toList = true →
      textContentList childNodes = "\\le x \\to y".toList →
      walk parentTag (.element tagName attributes textDecoration childNodes)
        = "$≤ x → y$".toList)
    ∧ (includes (className attributes) "math-inline".toList = true →
      textContentList childNodes = "\\foo bar".toList →
      walk parentTag (.element tagName attributes textDecoration childNodes)
        = "$bar$".toList)
    ∧ (includes (className attributes) "math-inline".toList = true →
      textContentList childNodes = "\\times 2".toList →
      walk parentTag (.element tagName attributes textDecoration childNodes)
        = "$× 2$".toList) := by
  have hspan : walk parentTag (.element tagName attributes textDecoration childNodes)
      = renderSpan attributes textDecoration childNodes (walkList (some tagName) childNodes) := by
    simp [walk, htag]
  have hinline : includes (className attributes) "math-inline".toList = true →
      walk parentTag (.element tagName attributes textDecoration childNodes)
        = "$".toList ++ normalizeMath (textContentList childNodes) ++ "$".toList := by
    intro h
    rw [hspan]
    unfold renderSpan
    simp only [h, if_true, extractMath]
  refine ⟨hinline, ?_, ?_, ?_, ?_⟩
  · intro h1 h2
    rw [hspan]
    unfold renderSpan
    simp only [h1, h2, if_true, extractMath]
    simp
  · intro h ht
    rw [hinline h, ht]
    decide
  · intro h ht
    rw [hinline h, ht]
    decide
  · intro h ht
    rw [hinline h, ht]
    decide

/-- C7, at a span of class `foo math-inline bar` whose text sits partly in a
nested `b` element, and at a `math-display` span. -/
theorem walk_math_span_witness :
    walk none (.element "SPAN".toList [("class".toList, "foo math-inline bar".toList)] none
        [txt "\\le x ", el "B" [txt "\\to y"]]) = "$≤ x → y$".toList
    ∧ walk none (.element "SPAN".toList [("class".toList, "math-display".toList)] none
        [txt "a \\cdot  b"]) = "\n$$\na · b\n$$\n".toList :=
  ⟨(walk_math_span none "SPAN".toList [("class".toList, "foo math-inline bar".toList)] none
      [txt "\\le x ", el "B" [txt "\\to y"]] (by decide)).2.2.1 (by decide) (by decide),
    ((walk_math_span none "SPAN".toList [("class".toList, "math-display".toList)] none
      [txt "a \\cdot  b"] (by decide)).2.1 (by decide) (by decide)).trans (by decide)⟩

/-- C8 fails on the code: `left` is a non-empty word of ASCII letters and not
a recognised macro name, yet `normalizeMath` turns a backslash followed by
`left` into `≤ft`; likewise `top` gives `→p` and `get` gives `≥t`.  An
unknown macro that does not start with a recognised name, such as `foo`,
does vanish. -/
theorem normalizeMath_unknown_macro_leaks :
    "left".toList.all Char.isAlpha = true
    ∧ "left".toList ∉ ["le", "leq", "ge", "geq", "times", "cdot", "to"].map String.toList
    ∧ normalizeMath ('\\' :: "foo".toList) = []
    ∧ normalizeMath ('\\' :: "left".toList) = "≤ft".toList
    ∧ normalizeMath ('\\' :: "top".toList) = "→p".toList
    ∧ normalizeMath ('\\' :: "get".toList) = "≥t".toList := by
  decide

/-- C9: among spans that are not math spans and have the same children, one
whose parsed text decoration contains `underline` and one whose parsed
decoration shows neither `underline` nor `line-through` but whose raw `style`
attribute, in lower case, contains `text-decoration` and `underline`, both
render to the rendered children between `<u>` and `</u>`. -/
theorem walk_span_underline (parentTag : Option Str) (tagName : Str)
    (attributesA attributesB : List (Str × Str)) (decorationA decorationB : Option Str)
    (childNodes : List Node)
    (htag : toLowerCase tagName = "span".toList)
    (hmathA : includes (className attributesA) "math-inline".toList = false
      ∧ includes (className attributesA) "math-display".toList = false)
    (hmathB : includes (className attributesB) "math-inline".toList = false
      ∧ includes (className attributesB) "math-display".toList = false)
    (hparsedA : includes (parsedDecoration decorationA) "underline".toList = true)
    (hparsedB : includes (parsedDecoration decorationB) "underline".toList = false
      ∧ includes (parsedDecoration decorationB) "line-through".toList = false)
    (hrawB : includes (toLowerCase ((getAttribute attributesB "style".toList).getD []))
        "text-decoration".toList = true
      ∧ includes (toLowerCase ((getAttribute attributesB "style".toList).getD []))
        "underline".toList = true) :
    walk parentTag (.element tagName attributesA decorationA childNodes)
      = "<u>".toList ++ (childNodes.map (walk (some tagName))).flatten ++ "</u>".toList
    ∧ walk parentTag (.element tagName attributesB decorationB childNodes)
      = walk parentTag (.element tagName attributesA decorationA childNodes) := by
  have hA : walk parentTag (.element tagName attributesA decorationA childNodes)
      = "<u>".toList ++ (childNodes.map (walk (some tagName))).flatten ++ "</u>".toList := by
    rw [← walkList_eq_flatten]
    have : walk parentTag (.element tagName attributesA decorationA childNodes)
        = renderSpan attributesA decorationA childNodes (walkList (some tagName) childNodes) := by
      simp [walk, htag]
    rw [this]
    unfold renderSpan
    simp only [hmathA.1, hmathA.2, hparsedA, if_true]
    simp
  refine ⟨hA, ?_⟩
  rw [hA, ← walkList_eq_flatten]
  have : walk parentTag (.element tagName attributesB decorationB childNodes)
      = renderSpan attributesB decorationB childNodes (walkList (some tagName) childNodes) := by
    simp [walk, htag]
  rw [this]
  unfold renderSpan
  simp only [hmathB.1, hmathB.2, hparsedB.1, hparsedB.2, hrawB.1, hrawB.2, if_true]
  simp

/-- C9, at a span with parsed decoration `underline` and a span with the raw
attribute `style="COLOR:red;Text-Decoration:UNDERLINE"`. -/
theorem walk_span_underline_witness :
    walk none (.element "SPAN".toList [] (some "underline".toList) [txt "x"])
      = "<u>x</u>".toList
    ∧ walk none (.element "SPAN".toList
        [("style".toList, "COLOR:red;Text-Decoration:UNDERLINE".toList)] none [txt "x"])
      = walk none (.element "SPAN".toList [] (some "underline".toList) [txt "x"]) :=
  have h := walk_span_underline none "SPAN".toList []
    [("style".toList, "COLOR:red;Text-Decoration:UNDERLINE".toList)]
    (some "underline".toList) none [txt "x"] (by decide) (by decide) (by decide) (by decide)
    (by decide) (by decide)
  ⟨h.1.trans (by decide), h.2⟩

/-- C6, as stated, fails: a table with one row and one cell holding `a`, a
`br` and `b` renders to the six pieces `""`, `| a`, `b |`, `| --- |`, `""`,
`""` when read line by line.  Three of them are not blank, where the claim
allows a header line, a separator line and no data line, so the output is not
a header line, a separator line and zero data lines followed by one blank
line. -/
theorem table_cell_with_newline :
    querySelectorAll ["tr".toList]
        (el "TABLE" [el "TBODY" [el "TR" [el "TD" [txt "a", el "BR" [], txt "b"]]]])
      = [el "TR" [el "TD" [txt "a", el "BR" [], txt "b"]]]
    ∧ (querySelectorAll cellTags (el "TR" [el "TD" [txt "a", el "BR" [], txt "b"]])).length = 1
    ∧ lines (walk none
        (el "TABLE" [el "TBODY" [el "TR" [el "TD" [txt "a", el "BR" [], txt "b"]]]]))
      = ["", "| a", "b |", "| --- |", "", ""].map String.toList
    ∧ ¬ ∃ (header : Str) (dataLines : List Str), dataLines.length = 1 - 1
        ∧ lines (walk none
            (el "TABLE" [el "TBODY" [el "TR" [el "TD" [txt "a", el "BR" [], txt "b"]]]]))
          = [[], header, separatorLine 1] ++ dataLines ++ [[], []] := by
  have hlines : lines (walk none
      (el "TABLE" [el "TBODY" [el "TR" [el "TD" [txt "a", el "BR" [], txt "b"]]]]))
      = ["", "| a", "b |", "| --- |", "", ""].map String.toList := by
    decide
  refine ⟨by rfl, by decide, hlines, ?_⟩
  rintro ⟨header, dataLines, hlen, heq⟩
  have := congrArg List.length heq
  rw [hlines] at this
  simp at this
  omega

/-- C6, amended: a `table` element without `tr` descendants renders to the
empty string.  With rows `first :: rest` (its `tr` descendants in document
order), and provided no rendered cell contains a newline, the output read
line by line is an empty first line, one header line with the cells of
`first`, one separator line made of a bar and one ` --- |` per cell of
`first`, one data line per row of `rest`, and one blank line after the table
body. -/
theorem walk_table (parentTag : Option Str) (tagName : Str) (attributes : List (Str × Str))
    (textDecoration : Option Str) (childNodes : List Node)
    (htag : toLowerCase tagName = "table".toList) :
    (querySelectorAll ["tr".toList] (.element tagName attributes textDecoration childNodes) = [] →
      walk parentTag (.element tagName attributes textDecoration childNodes) = [])
    ∧ (∀ (first : Node) (rest : List Node),
        querySelectorAll ["tr".toList] (.element tagName attributes textDecoration childNodes)
          = first :: rest →
        (∀ row ∈ first :: rest, ∀ cell ∈ rowCells row, '\n' ∉ cell) →
        lines (walk parentTag (.element tagName attributes textDecoration childNodes))
          = [[], headerLine (rowCells first),
              separatorLine (querySelectorAll cellTags first).length]
            ++ rest.map (fun row => dataLine (rowCells row)) ++ [[], []]) := by
  have hw : walk parentTag (.element tagName attributes textDecoration childNodes)
      = tableText ((selectList ["tr".toList] childNodes).map rowCells) := by
    rw [← rowsIn_eq]
    simp [walk, htag]
  constructor
  · intro h
    rw [hw]
    simp only [querySelectorAll, Node.childNodes] at h
    rw [h]
    rfl
  · intro first rest h hnl
    rw [hw]
    simp only [querySelectorAll, Node.childNodes] at h
    rw [h, List.map_cons, lines_tableText]
    · simp [rowCells, List.map_map, Function.comp_def]
    · intro row hrow cell hcell
      rw [← List.map_cons, List.mem_map] at hrow
      obtain ⟨r, hr, rfl⟩ := hrow
      exact hnl r hr cell hcell

/-- C6, at a table with a header row in a `thead` and one data row with an
empty cell in a `tbody`. -/
theorem walk_table_witness :
    lines (walk none (el "TABLE" [el "THEAD" [el "TR" [el "TH" [txt " a "], el "TH" [txt "b"]]],
        el "TBODY" [el "TR" [el "TD" [txt "1"], el "TD" []]]]))
      = ["", "| a | b |", "| --- | --- |", "| 1 | &nbsp; |", "", ""].map String.toList :=
  ((walk_table none "TABLE".toList [] none
      [el "THEAD" [el "TR" [el "TH" [txt " a "], el "TH" [txt "b"]]],
        el "TBODY" [el "TR" [el "TD" [txt "1"], el "TD" []]]] (by decide)).2
    (el "TR" [el "TH" [txt " a "], el "TH" [txt "b"]])
    [el "TR" [el "TD" [txt "1"], el "TD" []]] (by rfl) (by decide)).trans (by decide)

/-! ## Tag templates -/

/-- C11: `walk` on a `code` element returns its rendered children unchanged
exactly when the tag name of its immediate parent element is `pre` in lower
case; in every other case, a missing parent included, it returns the children
between single backticks.  The attributes and the parsed decoration of the
`code` element itself do not enter the result. -/
theorem walk_code (parentTag : Option Str) (tagName : Str) (attributes : List (Str × Str))
    (textDecoration : Option Str) (childNodes : List Node)
    (htag : toLowerCase tagName = "code".toList) :
    (walk parentTag (.element tagName attributes textDecoration childNodes)
        = (childNodes.map (walk (some tagName))).flatten
      ↔ parentTag.map toLowerCase = some "pre".toList)
    ∧ (parentTag.map toLowerCase ≠ some "pre".toList →
      walk parentTag (.element tagName attributes textDecoration childNodes)
        = "`".toList ++ (childNodes.map (walk (some tagName))).flatten ++ "`".toList)
    ∧ walk parentTag (.element tagName attributes textDecoration childNodes)
      = walk parentTag (.element tagName [] none childNodes) := by
  have hw : ∀ (a : List (Str × Str)) (d : Option Str),
      walk parentTag (.element tagName a d childNodes)
        = if parentTag.map toLowerCase = some "pre".toList
          then walkList (some tagName) childNodes
          else "`".toList ++ walkList (some tagName) childNodes ++ "`".toList := by
    intro a d
    simp [walk, htag]
  rw [← walkList_eq_flatten]
  refine ⟨?_, ?_, ?_⟩
  · rw [hw]
    constructor
    · intro h
      by_contra hp
      rw [if_neg hp] at h
      have := congrArg List.length h
      simp at this
      omega
    · intro hp
      rw [if_pos hp]
  · intro hp
    rw [hw, if_neg hp]
  · rw [hw, hw]

/-- C11, at a `code` directly inside a `pre`, one nested deeper inside a
`pre` (its parent is a `span`), and one without a parent. -/
theorem walk_code_witness :
    walk (some "PRE".toList) (el "CODE" [txt "x"]) = "x".toList
    ∧ walk none (el "PRE" [el "SPAN" [el "CODE" [txt "x"]]]) = "\n```\n`x`\n```\n".toList
    ∧ walk none (.element "CODE".toList [("class".toList, "pre".toList)] none [txt "x"])
      = "`x`".toList :=
  ⟨((walk_code (some "PRE".toList) "CODE".toList [] none [txt "x"] (by decide)).1.mpr
      (by decide)).trans (by decide),
    by decide,
    ((walk_code none "CODE".toList [("class".toList, "pre".toList)] none [txt "x"]
      (by decide)).2.1 (by decide)).trans (by decide)⟩

/-- C12: on an element whose lower-cased tag name is `p`, `strong`, `em`,
`sup`, `sub`, `pre`, `hr`, `br`, `ul` or `li`, `walk` returns the template of
that tag applied to `c`, the concatenation in document order of `walk` applied
to each child. -/
theorem walk_templates (parentTag : Option Str) (tagName : Str)
    (attributes : List (Str × Str)) (textDecoration : Option Str) (childNodes : List Node) :
    (toLowerCase tagName = "p".toList →
      walk parentTag (.element tagName attributes textDecoration childNodes)
        = (childNodes.map (walk (some tagName))).flatten ++ "\n\n".toList)
    ∧ (toLowerCase tagName = "strong".toList →
      walk parentTag (.element tagName attributes textDecoration childNodes)
        = "**".toList ++ (childNodes.map (walk (some tagName))).flatten ++ "**".toList)
    ∧ (toLowerCase tagName = "em".toList →
      walk parentTag (.element tagName attributes textDecoration childNodes)
        = "*".toList ++ (childNodes.map (walk (some tagName))).flatten ++ "*".toList)
    ∧ (toLowerCase tagName = "sup".toList →
      walk parentTag (.element tagName attributes textDecoration childNodes)
        = "<sup>".toList ++ (childNodes.map (walk (some tagName))).flatten ++ "</sup>".toList)
    ∧ (toLowerCase tagName = "sub".toList →
      walk parentTag (.element tagName attributes textDecoration childNodes)
        = "<sub>".toList ++ (childNodes.map (walk (some tagName))).flatten ++ "</sub>".toList)
    ∧ (toLowerCase tagName = "pre".toList →
      walk parentTag (.element tagName attributes textDecoration childNodes)
        = "\n```\n".toList ++ (childNodes.map (walk (some tagName))).flatten
          ++ "\n```\n".toList)
    ∧ (toLowerCase tagName = "hr".toList →
      walk parentTag (.element tagName attributes textDecoration childNodes)
        = "\n---\n\n".toList)
    ∧ (toLowerCase tagName = "br".toList →
      walk parentTag (.element tagName attributes textDecoration childNodes) = "\n".toList)
    ∧ (toLowerCase tagName = "ul".toList →
      walk parentTag (.element tagName attributes textDecoration childNodes)
        = "\n".toList ++ (childNodes.map (walk (some tagName))).flatten)
    ∧ (toLowerCase tagName = "li".toList →
      walk parentTag (.element tagName attributes textDecoration childNodes)
        = "- ".toList ++ (childNodes.map (walk (some tagName))).flatten ++ "\n".toList) := by
  rw [← walkList_eq_flatten]
  refine ⟨?_, ?_, ?_, ?_, ?_, ?_, ?_, ?_, ?_, ?_⟩ <;> intro h <;> simp [walk, h]

/-- C12, at one element of each of the ten tags. -/
theorem walk_templates_witness :
    walk none (el "P" [txt "a", el "EM" [txt "b"]]) = "a*b*\n\n".toList
    ∧ walk none (el "STRONG" [txt "a"]) = "**a**".toList
    ∧ walk none (el "EM" [txt "a"]) = "*a*".toList
    ∧ walk none (el "SUP" [txt "a"]) = "<sup>a</sup>".toList
    ∧ walk none (el "SUB" [txt "a"]) = "<sub>a</sub>".toList
    ∧ walk none (el "PRE" [txt "a"]) = "\n```\na\n```\n".toList
    ∧ walk none (el "HR" [txt "a"]) = "\n---\n\n".toList
    ∧ walk none (el "BR" []) = "\n".toList
    ∧ walk none (el "UL" [el "LI" [txt "a"]]) = "\n- a\n".toList
    ∧ walk none (el "LI" [txt "a"]) = "- a\n".toList :=
  ⟨((walk_templates none "P".toList [] none [txt "a", el "EM" [txt "b"]]).1
      (by decide)).trans (by decide),
    ((walk_templates none "STRONG".toList [] none [txt "a"]).2.1 (by decide)).trans (by decide),
    ((walk_templates none "EM".toList [] none [txt "a"]).2.2.1 (by decide)).trans (by decide),
    ((walk_templates none "SUP".toList [] none [txt "a"]).2.2.2.1 (by decide)).trans
      (by decide),
    ((walk_templates none "SUB".toList [] none [txt "a"]).2.2.2.2.1 (by decide)).trans
      (by decide),
    ((walk_templates none "PRE".toList [] none [txt "a"]).2.2.2.2.2.1 (by decide)).trans
      (by decide),
    (walk_templates none "HR".toList [] none [txt "a"]).2.2.2.2.2.2.1 (by decide),
    (walk_templates none "BR".toList [] none []).2.2.2.2.2.2.2.1 (by decide),
    ((walk_templates none "UL".toList [] none [el "LI" [txt "a"]]).2.2.2.2.2.2.2.2.1
      (by decide)).trans (by decide),
    ((walk_templates none "LI".toList [] none [txt "a"]).2.2.2.2.2.2.2.2.2
      (by decide)).trans (by decide)⟩

/-- C18: `walk` on an `img` element returns `![` + alt + `](` + src + `)`,
where alt and src are the values of the attributes `alt` and `src`, each the
empty string when the attribute is missing.  Two `img` elements with the same
`alt` and `src` render alike, whatever their other attributes, parsed
decoration and children. -/
theorem walk_img (parentTag : Option Str) (tagName : Str) (attributes : List (Str × Str))
    (textDecoration : Option Str) (childNodes : List Node)
    (htag : toLowerCase tagName = "img".toList) :
    walk parentTag (.element tagName attributes textDecoration childNodes)
      = "![".toList ++ (getAttribute attributes "alt".toList).getD []
        ++ "](".toList ++ (getAttribute attributes "src".toList).getD [] ++ ")".toList
    ∧ (getAttribute attributes "alt".toList = none →
      getAttribute attributes "src".toList = none →
      walk parentTag (.element tagName attributes textDecoration childNodes) = "![]()".toList)
    ∧ (∀ (attributes2 : List (Str × Str)) (textDecoration2 : Option Str)
        (childNodes2 : List Node),
        getAttribute attributes2 "alt".toList = getAttribute attributes "alt".toList →
        getAttribute attributes2 "src".toList = getAttribute attributes "src".toList →
        walk parentTag (.element tagName attributes2 textDecoration2 childNodes2)
          = walk parentTag (.element tagName attributes textDecoration childNodes)) := by
  have hw : ∀ (a : List (Str × Str)) (d : Option Str) (k : List Node),
      walk parentTag (.element tagName a d k)
        = "![".toList ++ (getAttribute a "alt".toList).getD []
          ++ "](".toList ++ (getAttribute a "src".toList).getD [] ++ ")".toList := by
    intro a d k
    simp [walk, htag, renderImage]
  refine ⟨hw _ _ _, ?_, ?_⟩
  · intro h1 h2
    rw [hw, h1, h2]
    rfl
  · intro a2 d2 k2 h1 h2
    rw [hw, hw, h1, h2]

/-- C18, at an image with `src`, `alt` and a further attribute, and at an
image without attributes. -/
theorem walk_img_witness :
    walk none (.element "IMG".toList
        [("src".toList, "a.png".toList), ("width".toList, "3".toList),
          ("alt".toList, "pic".toList)] none [txt "ignored"])
      = "![pic](a.png)".toList
    ∧ walk none (el "IMG" []) = "![]()".toList :=
  ⟨(walk_img none "IMG".toList
      [("src".toList, "a.png".toList), ("width".toList, "3".toList),
        ("alt".toList, "pic".toList)] none [txt "ignored"] (by decide)).1.trans (by decide),
    (walk_img none "IMG".toList [] none [] (by decide)).2.1 (by decide) (by decide)⟩

/-- C16: on a `span` that is not a math span, with `c` the rendered children,
the decoration is resolved by the first test that succeeds: parsed decoration
containing `underline` gives `<u>c</u>`; else parsed decoration containing
`line-through` gives `~~c~~`; else raw `style` attribute in lower case
containing `text-decoration` and `underline` gives `<u>c</u>`; else raw
attribute containing `text-decoration` and `line-through` gives `~~c~~`;
otherwise the result is `c`.  So `underline` wins over `line-through` when one
source shows both, and a span without parsed decoration and without `style`
attribute renders as its children. -/
theorem walk_span_decoration (parentTag : Option Str) (tagName : Str)
    (attributes : List (Str × Str)) (textDecoration : Option Str) (childNodes : List Node)
    (htag : toLowerCase tagName = "span".toList)
    (hmath : includes (className attributes) "math-inline".toList = false
      ∧ includes (className attributes) "math-display".toList = false) :
    (includes (parsedDecoration textDecoration) "underline".toList = true →
      walk parentTag (.element tagName attributes textDecoration childNodes)
        = "<u>".toList ++ (childNodes.map (walk (some tagName))).flatten ++ "</u>".toList)
    ∧ (includes (parsedDecoration textDecoration) "underline".toList = false →
      includes (parsedDecoration textDecoration) "line-through".toList = true →
      walk parentTag (.element tagName attributes textDecoration childNodes)
        = "~~".toList ++ (childNodes.map (walk (some tagName))).flatten ++ "~~".toList)
    ∧ (includes (parsedDecoration textDecoration) "underline".toList = false →
      includes (parsedDecoration textDecoration) "line-through".toList = false →
      includes (toLowerCase ((getAttribute attributes "style".toList).getD []))
        "text-decoration".toList = true →
      includes (toLowerCase ((getAttribute attributes "style".toList).getD []))
        "underline".toList = true →
      walk parentTag (.element tagName attributes textDecoration childNodes)
        = "<u>".toList ++ (childNodes.map (walk (some tagName))).flatten ++ "</u>".toList)
    ∧ (includes (parsedDecoration textDecoration) "underline".toList = false →
      includes (parsedDecoration textDecoration) "line-through".toList = false →
      includes (toLowerCase ((getAttribute attributes "style".toList).getD []))
        "text-decoration".toList = true →
      includes (toLowerCase ((getAttribute attributes "style".toList).getD []))
        "underline".toList = false →
      includes (toLowerCase ((getAttribute attributes "style".toList).getD []))
        "line-through".toList = true →
      walk parentTag (.element tagName attributes textDecoration childNodes)
        = "~~".toList ++ (childNodes.map (walk (some tagName))).flatten ++ "~~".toList)
    ∧ (includes (parsedDecoration textDecoration) "underline".toList = false →
      includes (parsedDecoration textDecoration) "line-through".toList = false →
      (includes (toLowerCase ((getAttribute attributes "style".toList).getD []))
          "text-decoration".toList = false
        ∨ (includes (toLowerCase ((getAttribute attributes "style".toList).getD []))
            "underline".toList = false
          ∧ includes (toLowerCase ((getAttribute attributes "style".toList).getD []))
            "line-through".toList = false)) →
      walk parentTag (.element tagName attributes textDecoration childNodes)
        = (childNodes.map (walk (some tagName))).flatten)
    ∧ (textDecoration = none → getAttribute attributes "style".toList = none →
      walk parentTag (.element tagName attributes textDecoration childNodes)
        = (childNodes.map (walk (some tagName))).flatten) := by
  rw [← walkList_eq_flatten]
  have hw : walk parentTag (.element tagName attributes textDecoration childNodes)
      = renderSpan attributes textDecoration childNodes (walkList (some tagName) childNodes) := by
    simp [walk, htag]
  rw [hw]
  unfold renderSpan
  simp only [hmath.1, hmath.2]
  refine ⟨?_, ?_, ?_, ?_, ?_, ?_⟩
  · intro h1
    simp only [h1]
    simp
  · intro h1 h2
    simp only [h1, h2]
    simp
  · intro h1 h2 h3 h4
    simp only [h1, h2, h3, h4]
    simp
  · intro h1 h2 h3 h4 h5
    simp only [h1, h2, h3, h4, h5]
    simp
  · intro h1 h2 h3
    rcases h3 with h3 | ⟨h3, h4⟩
    · simp only [h1, h2, h3]
      simp
    · simp only [h1, h2, h3, h4]
      simp
  · intro h1 h2
    subst h1
    rw [h2]
    have e1 : includes (parsedDecoration none) "underline".toList = false := by decide
    have e2 : includes (parsedDecoration none) "line-through".toList = false := by decide
    have e3 : includes (toLowerCase ((none : Option Str).getD [])) "text-decoration".toList
        = false := by decide
    simp only [e1, e2, e3]
    simp

/-- C16, at spans whose parsed decoration shows both decorations, only
`line-through`, and nothing while the raw attribute shows both, and at a
plain span. -/
theorem walk_span_decoration_witness :
    walk none (.element "SPAN".toList [] (some "line-through UNDERLINE".toList) [txt "x"])
      = "<u>x</u>".toList
    ∧ walk none (.element "SPAN".toList
        [("style".toList, "text-decoration: underline".toList)]
        (some "Line-Through".toList) [txt "x"]) = "~~x~~".toList
    ∧ walk none (.element "SPAN".toList
        [("style".toList, "text-decoration: line-through underline".toList)]
        none [txt "x"]) = "<u>x</u>".toList
    ∧ walk none (el "SPAN" [txt "x", el "EM" [txt "y"]]) = "x*y*".toList :=
  ⟨((walk_span_decoration none "SPAN".toList [] (some "line-through UNDERLINE".toList)
      [txt "x"] (by decide) (by decide)).1 (by decide)).trans (by decide),
    ((walk_span_decoration none "SPAN".toList
      [("style".toList, "text-decoration: underline".toList)] (some "Line-Through".toList)
      [txt "x"] (by decide) (by decide)).2.1 (by decide) (by decide)).trans (by decide),
    ((walk_span_decoration none "SPAN".toList
      [("style".toList, "text-decoration: line-through underline".toList)] none
      [txt "x"] (by decide) (by decide)).2.2.1 (by decide) (by decide) (by decide)
      (by decide)).trans (by decide),
    ((walk_span_decoration none "SPAN".toList [] none [txt "x", el "EM" [txt "y"]]
      (by decide) (by decide)).2.2.2.2.2 rfl (by decide)).trans (by decide)⟩

/-! ## Tables: wrappers and data rows -/

theorem selectList_append (tags : List Str) (a b : List Node) :
    selectList tags (a ++ b) = selectList tags a ++ selectList tags b := by
  induction a with
  | nil => simp [selectList]
  | cons n ns ih => simp [selectList, ih]

theorem selectList_wrappers (groups : List Node)
    (hwrap : ∀ g ∈ groups, isElementOf wrapperTags g = true) :
    selectList ["tr".toList] groups
      = selectList ["tr".toList] (groups.map Node.childNodes).flatten := by
  induction groups with
  | nil => simp
  | cons g gs ih =>
    have hg := hwrap g (by simp)
    have ih2 := ih (fun x hx => hwrap x (by simp [hx]))
    cases g with
    | text data => simp [isElementOf] at hg
    | other => simp [isElementOf] at hg
    | element tagName attributes textDecoration childNodes =>
      have hne : toLowerCase tagName ∉ ["tr".toList] := by
        intro h
        have h1 : toLowerCase tagName = "tr".toList := by simpa using h
        rw [isElementOf, h1] at hg
        revert hg
        decide
      simp only [selectList, selectNode, if_neg hne, List.nil_append, List.map_cons,
        List.flatten_cons, Node.childNodes, selectList_append, ih2]

theorem walk_table_eq (parentTag : Option Str) (tagName : Str) (attributes : List (Str × Str))
    (textDecoration : Option Str) (childNodes : List Node)
    (htag : toLowerCase tagName = "table".toList) :
    walk parentTag (.element tagName attributes textDecoration childNodes)
      = tableText ((querySelectorAll ["tr".toList]
          (.element tagName attributes textDecoration childNodes)).map rowCells) := by
  simp only [querySelectorAll, Node.childNodes]
  rw [← rowsIn_eq]
  simp [walk, htag]

/-- C13: a `table` whose children are `thead` and `tbody` wrappers renders to
the same string as the `table` whose children are the children of these
wrappers in the same order.  Both tables have the same list of `tr`
descendants, and when the first wrapped node is a `tr` element it is row 0,
the header, of both. -/
theorem walk_table_wrappers (parentTag : Option Str) (tagName : Str)
    (attributes : List (Str × Str)) (textDecoration : Option Str) (groups : List Node)
    (htag : toLowerCase tagName = "table".toList)
    (hwrap : ∀ g ∈ groups, isElementOf wrapperTags g = true) :
    walk parentTag (.element tagName attributes textDecoration groups)
      = walk parentTag (.element tagName attributes textDecoration
          (groups.map Node.childNodes).flatten)
    ∧ querySelectorAll ["tr".toList] (.element tagName attributes textDecoration groups)
      = querySelectorAll ["tr".toList] (.element tagName attributes textDecoration
          (groups.map Node.childNodes).flatten)
    ∧ (∀ (first : Node) (rest : List Node),
        (groups.map Node.childNodes).flatten = first :: rest →
        isElementOf ["tr".toList] first = true →
        (querySelectorAll ["tr".toList]
          (.element tagName attributes textDecoration groups)).head? = some first) := by
  have hq : querySelectorAll ["tr".toList] (.element tagName attributes textDecoration groups)
      = querySelectorAll ["tr".toList] (.element tagName attributes textDecoration
          (groups.map Node.childNodes).flatten) := by
    simp only [querySelectorAll, Node.childNodes]
    exact selectList_wrappers groups hwrap
  refine ⟨?_, hq, ?_⟩
  · rw [walk_table_eq _ _ _ _ _ htag, walk_table_eq _ _ _ _ _ htag, hq]
  · intro first rest hrows hfirst
    rw [hq]
    simp only [querySelectorAll, Node.childNodes, hrows]
    cases first with
    | text data => simp [isElementOf] at hfirst
    | other => simp [isElementOf] at hfirst
    | element t a d k =>
      have ht : toLowerCase t ∈ ["tr".toList] := by simpa [isElementOf] using hfirst
      simp only [selectList, selectNode, if_pos ht]
      simp

/-- C13, at a table with one row in a `thead` and two rows in a `tbody`. -/
theorem walk_table_wrappers_witness :
    walk none (el "TABLE" [el "THEAD" [el "TR" [el "TH" [txt "h"]]],
        el "TBODY" [el "TR" [el "TD" [txt "1"]], el "TR" [el "TD" [txt "2"]]]])
      = walk none (el "TABLE" [el "TR" [el "TH" [txt "h"]], el "TR" [el "TD" [txt "1"]],
          el "TR" [el "TD" [txt "2"]]])
    ∧ walk none (el "TABLE" [el "TR" [el "TH" [txt "h"]], el "TR" [el "TD" [txt "1"]],
          el "TR" [el "TD" [txt "2"]]])
      = "\n| h |\n| --- |\n| 1 |\n| 2 |\n\n".toList :=
  ⟨(walk_table_wrappers none "TABLE".toList [] none
      [el "THEAD" [el "TR" [el "TH" [txt "h"]]],
        el "TBODY" [el "TR" [el "TD" [txt "1"]], el "TR" [el "TD" [txt "2"]]]]
      (by decide) (by decide)).1,
    by decide⟩

/-- C14: in a rendered table with rows `first :: rest`, the output is the
header line, the separator line and then, for each row of `rest`, `| ` + its
cell segments joined by ` | ` + ` |` + newline, closed by one more newline.
The segments of a row are its `td`/`th` cells in document order, each the
rendered children trimmed, or `&nbsp;` when that is empty; so a row has as
many segments as it has cells, whatever the header has, and no segment is
empty. -/
theorem walk_table_data_rows (parentTag : Option Str) (tagName : Str)
    (attributes : List (Str × Str)) (textDecoration : Option Str) (childNodes : List Node)
    (first : Node) (rest : List Node)
    (htag : toLowerCase tagName = "table".toList)
    (hrows : querySelectorAll ["tr".toList]
      (.element tagName attributes textDecoration childNodes) = first :: rest) :
    walk parentTag (.element tagName attributes textDecoration childNodes)
      = "\n".toList ++ headerLine (rowCells first) ++ "\n".toList
        ++ separatorLine (querySelectorAll cellTags first).length ++ "\n".toList
        ++ (rest.map (fun row =>
            "| ".toList ++ List.intercalate " | ".toList (dataSegments row)
              ++ " |\n".toList)).flatten
        ++ "\n".toList
    ∧ (∀ row : Node, (dataSegments row).length = (querySelectorAll cellTags row).length)
    ∧ (∀ row : Node, ∀ seg ∈ dataSegments row, seg ≠ []) := by
  refine ⟨?_, ?_, ?_⟩
  · rw [walk_table_eq _ _ _ _ _ htag, hrows]
    simp [tableText, headerLine, separatorLine, dataSegments, rowCells, List.map_map,
      Function.comp_def]
  · intro row
    simp [dataSegments]
  · intro row seg hseg
    simp only [dataSegments, List.mem_map] at hseg
    obtain ⟨cell, _, rfl⟩ := hseg
    split
    · decide
    · assumption

/-- C14, at a table whose header has two cells and whose data rows have three
cells, one of them blank, and one cell. -/
theorem walk_table_data_rows_witness :
    walk none (el "TABLE" [el "TBODY" [el "TR" [el "TH" [txt "a"], el "TH" [txt "b"]],
        el "TR" [el "TD" [txt " 1 "], el "TD" [txt "  "], el "TH" [txt "3"]],
        el "TR" [el "TD" [txt "x"]]]])
      = "\n| a | b |\n| --- | --- |\n| 1 | &nbsp; | 3 |\n| x |\n\n".toList :=
  ((walk_table_data_rows none "TABLE".toList [] none
    [el "TBODY" [el "TR" [el "TH" [txt "a"], el "TH" [txt "b"]],
      el "TR" [el "TD" [txt " 1 "], el "TD" [txt "  "], el "TH" [txt "3"]],
      el "TR" [el "TD" [txt "x"]]]]
    (el "TR" [el "TH" [txt "a"], el "TH" [txt "b"]])
    [el "TR" [el "TD" [txt " 1 "], el "TD" [txt "  "], el "TH" [txt "3"]],
      el "TR" [el "TD" [txt "x"]]]
    (by decide) (by rfl)).1).trans (by decide)

/-! ## Invocations of `walk` -/

mutual
theorem nodeCount_le_walkCalls : ∀ n : Node, nodeCount n ≤ walkCalls n
  | .text _ => by simp [nodeCount, walkCalls]
  | .other => by simp [nodeCount, walkCalls]
  | .element _ _ _ childNodes => by
    have := nodeCountList_le_walkCallsList childNodes
    simp only [nodeCount, walkCalls]
    omega
theorem nodeCountList_le_walkCallsList : ∀ ns : List Node,
    nodeCountList ns ≤ walkCallsList ns
  | [] => by simp [nodeCountList, walkCallsList]
  | n :: ns => by
    have h1 := nodeCount_le_walkCalls n
    have h2 := nodeCountList_le_walkCallsList ns
    simp only [nodeCountList, walkCallsList]
    omega
end

/-- C15 fails on the code: converting the two-node tree of `<span>x</span>`
invokes `walk` three times, the text node being walked at line 19 and again
at line 65, and for `x` inside `depth` nested spans the `depth + 1` nodes cost
`2 ^ (depth + 1) - 1` invocations.  What holds for every tree is that no node
is skipped: the invocations are at least as many as the nodes. -/
theorem walkCalls_nestedSpans (depth : Nat) :
    nodeCount (nestedSpans depth) = depth + 1
    ∧ walkCalls (nestedSpans depth) + 1 = 2 ^ (depth + 1)
    ∧ nodeCount (el "SPAN" [txt "x"]) = 2
    ∧ walkCalls (el "SPAN" [txt "x"]) = 3
    ∧ (∀ n : Node, nodeCount n ≤ walkCalls n) := by
  refine ⟨?_, ?_, by decide, by decide, nodeCount_le_walkCalls⟩
  · induction depth with
    | zero => decide
    | succ d ih =>
      simp only [nestedSpans, el, nodeCount, nodeCountList, ih]
      omega
  · induction depth with
    | zero => decide
    | succ d ih =>
      have hspan : toLowerCase "SPAN".toList = "span".toList := by decide
      have hol : ¬ ("span".toList = "ol".toList) := by decide
      simp only [nestedSpans, el, walkCalls, walkCallsList, hspan, if_neg hol, if_true]
      rw [pow_succ]
      omega

/-! ## The import handler -/

theorem matchClass_eq_some (p : Char → Bool) (s rest : Str) :
    matchClass p s = some rest ↔ ∃ c, s = c :: rest ∧ p c = true := by
  cases s with
  | nil => simp [matchClass]
  | cons c cs =>
    by_cases hc : p c = true
    · simp only [matchClass, hc, if_true, Option.some.injEq, List.cons.injEq]
      constructor
      · rintro rfl
        exact ⟨c, ⟨rfl, rfl⟩, hc⟩
      · rintro ⟨d, ⟨_, h⟩, _⟩
        exact h
    · simp only [matchClass, hc]
      constructor
      · intro h
        simp at h
      · rintro ⟨d, h, hd⟩
        have : c = d := (List.cons.inj h).1
        exact absurd (this ▸ hd) hc

theorem matchClassTimes_succ (p : Char → Bool) (n : Nat) (s r : Str) :
    matchClassTimes p (n + 1) s = some r
      ↔ ∃ c t, s = c :: t ∧ p c = true ∧ matchClassTimes p n t = some r := by
  simp only [matchClassTimes]
  constructor
  · intro h
    split at h
    · rename_i rest hrest
      obtain ⟨c, hs, hc⟩ := (matchClass_eq_some p s rest).mp hrest
      exact ⟨c, rest, hs, hc, h⟩
    · simp at h
  · rintro ⟨c, t, hs, hc, h⟩
    have := (matchClass_eq_some p s t).mpr ⟨c, hs, hc⟩
    rw [this]
    exact h

theorem pidRegexTest_iff (s : Str) :
    pidRegexTest s = true
      ↔ ∃ a d1 d2 d3, s = [a, d1, d2, d3] ∧ isAsciiLetter a = true ∧ isAsciiDigit d1 = true
          ∧ isAsciiDigit d2 = true ∧ isAsciiDigit d3 = true := by
  constructor
  · intro h
    unfold pidRegexTest at h
    split at h
    · rename_i rest hrest
      split at h
      · rename_i rest2 hrest2
        obtain ⟨a, hs, ha⟩ := (matchClass_eq_some _ _ _).mp hrest
        obtain ⟨d1, t1, ht1, h1, hrest2⟩ := (matchClassTimes_succ _ _ _ _).mp hrest2
        obtain ⟨d2, t2, ht2, h2, hrest2⟩ := (matchClassTimes_succ _ _ _ _).mp hrest2
        obtain ⟨d3, t3, ht3, h3, hrest2⟩ := (matchClassTimes_succ _ _ _ _).mp hrest2
        simp only [matchClassTimes, Option.some.injEq] at hrest2
        have hnil : rest2 = [] := by simpa using h
        subst hrest2
        subst hnil
        subst ht3
        subst ht2
        subst ht1
        exact ⟨a, d1, d2, d3, hs, ha, h1, h2, h3⟩
      · simp at h
    · simp at h
  · rintro ⟨a, d1, d2, d3, rfl, ha, h1, h2, h3⟩
    simp [pidRegexTest, matchClass, matchClassTimes, ha, h1, h2, h3]

/-- C19: the problem-ID check accepts a string exactly when it consists of
four characters, an ASCII letter followed by three ASCII digits; every other
string is rejected with a validation error on `problemid`, among them the
empty string, a string with a fourth digit and a valid ID followed by a
newline. -/
theorem checkProblemId_iff (s : Str) :
    (checkProblemId s = .ok ()
      ↔ ∃ a d1 d2 d3, s = [a, d1, d2, d3] ∧ isAsciiLetter a = true ∧ isAsciiDigit d1 = true
          ∧ isAsciiDigit d2 = true ∧ isAsciiDigit d3 = true)
    ∧ (checkProblemId s = .ok ()
      ∨ ∃ message, checkProblemId s = .error { field := "problemid", message := message })
    ∧ (∃ message, checkProblemId [] = .error { field := "problemid", message := message })
    ∧ (∃ message, checkProblemId "a1234".toList
        = .error { field := "problemid", message := message })
    ∧ (∃ message, checkProblemId "a123\n".toList
        = .error { field := "problemid", message := message })
    ∧ checkProblemId "a123".toList = .ok ()
    ∧ checkProblemId "Z000".toList = .ok () := by
  refine ⟨?_, ?_, ⟨_, rfl⟩, ⟨_, rfl⟩, ⟨_, rfl⟩, rfl, rfl⟩
  · rw [← pidRegexTest_iff]
    unfold checkProblemId
    cases pidRegexTest s <;> simp
  · unfold checkProblemId
    cases pidRegexTest s
    · right
      exact ⟨_, rfl⟩
    · left
      rfl

theorem firstLoop_spec (data : ZJson) :
    ∀ (indices : List Nat) (tasks : List Task) (config : Config) (tasks2 : List Task)
      (config2 : Config),
      firstLoop data indices (tasks, config) = some (tasks2, config2) →
      tasks2.map Task.name = tasks.map Task.name ++ (indices.map testFileNames).flatten
      ∧ config2.subtasks = config.subtasks ++ indices.map subtaskOf
      ∧ config2.time = config.time ∧ config2.memory = config.memory := by
  intro indices
  induction indices with
  | nil =>
    intro tasks config tasks2 config2 h
    simp only [firstLoop, Option.some.injEq, Prod.mk.injEq] at h
    obtain ⟨rfl, rfl⟩ := h
    simp
  | cons i rest ih =>
    intro tasks config tasks2 config2 h
    simp only [firstLoop] at h
    split at h
    · simp at h
    · split at h
      · simp at h
      · obtain ⟨h1, h2, h3, h4⟩ := ih _ _ _ _ h
        refine ⟨?_, ?_, h3, h4⟩
        · rw [h1]
          simp [testFileNames]
        · rw [h2]
          simp [subtaskOf]

theorem secondLoop_spec (data : ZJson) :
    ∀ (indices : List Nat) (tasks : List Task) (config : Config) (tasks2 : List Task)
      (config2 : Config),
      secondLoop data indices (tasks, config) = some (tasks2, config2) →
      tasks2.map Task.name = tasks.map Task.name ++ (indices.map testFileNames).flatten
      ∧ config2.subtasks = config.subtasks ++ indices.map subtaskOf
      ∧ config2.time = config.time ∧ config2.memory = config.memory := by
  intro indices
  induction indices with
  | nil =>
    intro tasks config tasks2 config2 h
    simp only [secondLoop, Option.some.injEq, Prod.mk.injEq] at h
    obtain ⟨rfl, rfl⟩ := h
    simp
  | cons i rest ih =>
    intro tasks config tasks2 config2 h
    simp only [secondLoop] at h
    split at h
    · simp at h
    · split at h
      · simp at h
      · obtain ⟨h1, h2, h3, h4⟩ := ih _ _ _ _ h
        refine ⟨?_, ?_, h3, h4⟩
        · rw [h1]
          simp [testFileNames]
        · rw [h2]
          simp [subtaskOf]

/-- C20 fails on the code: the loop over the test files runs twice (lines 87
to 97 and again lines 102 to 112), each time followed by a push of
`config.yaml`.  For a bundle with one test file pair the final configuration
has two subtasks and the names scheduled for writing are `1.in`, `1.out`,
`config.yaml`, `1.in`, `1.out`, `config.yaml`.  Whenever the test-data part
completes for `testfilelength = n`, the subtask list is the `n` expected
subtasks twice over and every file name is scheduled twice.  The defaults `1s`
and `64mb` for absent limits do hold. -/
theorem buildTestdata_runs_twice (data : ZJson) :
    (buildTestdata oneTestBundle).map (fun r => r.2.subtasks)
      = some [[⟨"1.in".toList, "1.out".toList⟩], [⟨"1.in".toList, "1.out".toList⟩]]
    ∧ (buildTestdata oneTestBundle).map (fun r => r.1.map Task.name)
      = some (["1.in", "1.out", "config.yaml", "1.in", "1.out", "config.yaml"].map
          String.toList)
    ∧ (∀ (tasks : List Task) (config : Config), buildTestdata data = some (tasks, config) →
        config.subtasks = (List.range data.testfilelength).map subtaskOf
            ++ (List.range data.testfilelength).map subtaskOf
        ∧ tasks.map Task.name
          = ((List.range data.testfilelength).map testFileNames).flatten
            ++ ["config.yaml".toList]
            ++ ((List.range data.testfilelength).map testFileNames).flatten
            ++ ["config.yaml".toList]
        ∧ (data.timelimits = none → config.time = "1s".toList)
        ∧ (data.memorylimit = none → config.memory = "64mb".toList)) := by
  refine ⟨by decide, by decide, ?_⟩
  intro tasks config h
  unfold buildTestdata at h
  split at h
  · simp at h
  · rename_i tasks1 config1 hfirst
    obtain ⟨a1, a2, a3, a4⟩ := firstLoop_spec data _ _ _ _ _ hfirst
    simp only at h
    split at h
    · simp at h
    · rename_i tasks2 config2 hsecond
      obtain ⟨b1, b2, b3, b4⟩ := secondLoop_spec data _ _ _ _ _ hsecond
      simp only [Option.some.injEq, Prod.mk.injEq] at h
      obtain ⟨rfl, rfl⟩ := h
      refine ⟨?_, ?_, ?_, ?_⟩
      · rw [b2, a2]
        simp [initialConfig]
      · simp only [List.map_append, b1, a1]
        simp
      · intro ht
        rw [b3, a3]
        simp [initialConfig, ht, timelimitsFalsy]
      · intro hm
        rw [b4, a4]
        simp [initialConfig, hm]

/-- C17, as stated, fails: `normalizeMath` turns `a \foo b` into `a  b` with
two consecutive spaces, because the macro between the spaces is stripped
after the white space was collapsed, and a second application gives `a b`,
so `normalizeMath` is not idempotent. -/
theorem normalizeMath_double_space :
    normalizeMath "a \\foo b".toList = "a  b".toList
    ∧ (∃ a b, isWhiteSpace a = true ∧ isWhiteSpace b = true
        ∧ [a, b] <:+: normalizeMath "a \\foo b".toList)
    ∧ normalizeMath (normalizeMath "a \\foo b".toList) = "a b".toList
    ∧ normalizeMath (normalizeMath "a \\foo b".toList) ≠ normalizeMath "a \\foo b".toList := by
  have h1 : normalizeMath "a \\foo b".toList = "a  b".toList := by decide
  refine ⟨h1, ⟨' ', ' ', by decide, by decide, ?_⟩, by decide, by decide⟩
  rw [h1]
  exact ⟨['a'], ['b'], rfl⟩

/-- C17, amended: for every string `s`, `normalizeMath s` contains no
backslash and has no leading or trailing white space.  When `s` contains no
backslash, `normalizeMath s` contains no two consecutive white space
characters and `normalizeMath` applied to it returns it unchanged; so on every
`s` a third application of `normalizeMath` changes nothing after the second. -/
theorem normalizeMath_normal_form (s : Str) :
    '\\' ∉ normalizeMath s
    ∧ (¬ ∃ c rest, normalizeMath s = c :: rest ∧ isWhiteSpace c = true)
    ∧ (¬ ∃ c init, normalizeMath s = init ++ [c] ∧ isWhiteSpace c = true)
    ∧ ('\\' ∉ s →
        (¬ ∃ a b, isWhiteSpace a = true ∧ isWhiteSpace b = true ∧ [a, b] <:+: normalizeMath s)
        ∧ normalizeMath (normalizeMath s) = normalizeMath s)
    ∧ normalizeMath (normalizeMath (normalizeMath s)) = normalizeMath (normalizeMath s) := by
  refine ⟨normalizeMath_no_backslash s, ?_, ?_, ?_, ?_⟩
  · unfold normalizeMath
    exact trim_head_not_space _
  · unfold normalizeMath
    exact trim_last_not_space _
  · intro hs
    obtain ⟨h1, h2⟩ := normalizeMath_fixed s hs
    refine ⟨?_, h2⟩
    rintro ⟨a, b, ha, hb, hab⟩
    rw [h1 a b hab ha] at hb
    exact absurd hb (by simp)
  · exact (normalizeMath_fixed _ (normalizeMath_no_backslash s)).2

/-- C17, at a text without backslash and with runs of white space. -/
theorem normalizeMath_normal_form_witness :
    normalizeMath " x  +\t\n y ".toList = "x + y".toList
    ∧ normalizeMath (normalizeMath " x  +\t\n y ".toList)
      = normalizeMath " x  +\t\n y ".toList :=
  ⟨by decide,
    ((normalizeMath_normal_form " x  +\t\n y ".toList).2.2.2.1 (by decide)).2⟩

end ZjToHydro
